import Mathlib

/-!
# Board engine of the 2048 game (`backend/game.js`)

A shallow embedding of the pure functions of `backend/game.js` and the properties
of the slide / merge / rotate / spawn pipeline.

Modelling conventions.
* A cell is an integer (`Int`), `0` is the empty cell; a row is a `List Int`, a board a
  list of rows.  JavaScript's `===` on such cells is equality of integers and
  `JSON.stringify(a) !== JSON.stringify(b)` on boards of integers is `a ≠ b`.
* An array read `board[i][j]` is `cellAt board i j : Option Int`, where `none` is
  JavaScript's `undefined`.  `rotateBoard` copies cells with `cellD`; on every board whose
  rows have at least `board.length` entries (all square boards) the read is in bounds.
* The two calls of `Math.random()` in `addRandomTile` are the two fields of a `Draw`.
* The arithmetic of the code, `filtered[i] * 2` and the `+=` of the scores, is exact on
  `Int`.  JavaScript numbers are doubles: the properties that depend on the size of the
  numbers (the value of the score, the doubling of very large tiles) are stated on the
  second copy of the engine, `Js`, whose cells are doubles.  On square boards of integers
  small enough for every score to stay within `2 ^ 53` the two engines return the same
  result (`js_slideLeft_exact`, `js_move_exact`).
-/

namespace Game2048

/-- A board: the rows of the grid, top row first. -/
abbrev Board := List (List Int)

/-- The function `cloneBoard`: `board.map((row) => [...row])`. -/
def cloneBoard (board : Board) : Board := board.map fun row => row.map fun v => v

/-- The array read `board[i][j]`; `none` stands for `undefined`. -/
def cellAt (board : Board) (i j : Nat) : Option Int := (board[i]?).bind fun row => row[j]?

/-- The array read `board[i][j]` of a cell that lies inside the board. -/
def cellD (board : Board) (i j : Nat) : Int := (cellAt board i j).getD 0

/-- The `for` loop of `slideLeft` over `filtered`: the list `merged` it builds and the
`scoreDelta` it accumulates.  An equal pair is replaced by its double and both entries are
skipped (`i++` in the body, then the loop's own `i++`). -/
def mergeLoop : List Int → List Int × Int
  | [] => ([], 0)
  | [a] => ([a], 0)
  | a :: b :: rest =>
    if a = b then
      ((a * 2) :: (mergeLoop rest).1, a * 2 + (mergeLoop rest).2)
    else
      (a :: (mergeLoop (b :: rest)).1, (mergeLoop (b :: rest)).2)

/-- The function `slideLeft`: drop the zeros, merge, pad with zeros up to `row.length`. -/
def slideLeft (row : List Int) : List Int × Int :=
  let filtered := row.filter fun v => v ≠ 0
  let merged := (mergeLoop filtered).1
  (merged ++ List.replicate (row.length - merged.length) 0, (mergeLoop filtered).2)

/-- The assignment `next[x][y] = v`; wherever the code assigns, `x` and `y` are in bounds. -/
def setCell (board : Board) (x y : Nat) (v : Int) : Board :=
  board.set x ((board.getD x []).set y v)

/-- One pass of the outer loop of `rotateBoard`: starting from the `size × size` board of
zeros, the two nested loops perform `next[j][size - 1 - i] = rotated[i][j]` for all
`i, j < size`. -/
def rotateOnce (rotated : Board) : Board :=
  let size := rotated.length
  let next : Board := List.replicate size (List.replicate size 0)
  (List.range size).foldl
    (fun next i =>
      (List.range size).foldl
        (fun next j => setCell next j (size - 1 - i) (cellD rotated i j)) next)
    next

/-- The loop bound `(times % 4 + 4) % 4` of `rotateBoard` (`%` truncates in JavaScript). -/
def rotationCount (times : Int) : Nat := (Int.tmod (Int.tmod times 4 + 4) 4).toNat

/-- The function `rotateBoard`. -/
def rotateBoard (board : Board) (times : Int) : Board :=
  Nat.iterate rotateOnce (rotationCount times) (cloneBoard board)

/-- The `rotations` chosen by `move`; every string other than the three tested is "left". -/
def rotationsFor (direction : String) : Int :=
  if direction = "up" then 1
  else if direction = "right" then 2
  else if direction = "down" then 3
  else 0

/-- The list `empty` built by `addRandomTile`: the positions `[i, j]`, `i, j < board.length`,
with `board[i][j] === 0`, in row-major order. -/
def emptyCells (board : Board) : List (Nat × Nat) :=
  let size := board.length
  (List.range size).flatMap fun i =>
    ((List.range size).filter fun j => cellAt board i j = some 0).map fun j => (i, j)

/-- The outcome of the two calls of `Math.random()` in `addRandomTile`.  The first call only
selects an index below `empty.length`: it is `pick % empty.length`, so that every `pick`
is an outcome and every outcome is reached by some `pick`.  `small` tells whether the second
call returned less than `0.9`. -/
structure Draw where
  pick : Nat
  small : Bool

/-- The function `addRandomTile`. -/
def addRandomTile (board : Board) (draw : Draw) : Board :=
  let empty := emptyCells board
  if empty.length = 0 then cloneBoard board
  else
    let p := empty.getD (draw.pick % empty.length) (0, 0)
    setCell (cloneBoard board) p.1 p.2 (if draw.small then 2 else 4)

/-- The function `hasPossibleMoves`. -/
def hasPossibleMoves (board : Board) : Bool :=
  let size := board.length
  ((List.range size).any fun i => (List.range size).any fun j => cellAt board i j == some 0)
  || ((List.range size).any fun i => (List.range size).any fun j =>
        (decide (j + 1 < size) && cellAt board i j == cellAt board i (j + 1))
        || (decide (i + 1 < size) && cellAt board i j == cellAt board (i + 1) j))

/-- The first half of `move`: the board `unrotated` (rotate, slide every row, rotate back),
which is the board before any tile is spawned, and `totalDelta`. -/
def slideAll (board : Board) (direction : String) : Board × Int :=
  let rotations := rotationsFor direction
  let working := rotateBoard board rotations
  let totalDelta := working.foldl (fun acc row => acc + (slideLeft row).2) 0
  let after := working.map fun row => (slideLeft row).1
  (rotateBoard after (Int.tmod (4 - rotations) 4), totalDelta)

/-- The object returned by `move`. -/
structure MoveResult where
  board : Board
  scoreDelta : Int
  moved : Bool
  won : Bool
  gameOver : Bool

/-- The function `move`. -/
def move (board : Board) (direction : String) (draw : Draw) : MoveResult :=
  let unrotated := (slideAll board direction).1
  let moved := decide (board ≠ unrotated)
  let withRandom := if moved then addRandomTile unrotated draw else unrotated
  let won := withRandom.flatten.contains 2048
  let gameOver := !won && !hasPossibleMoves withRandom
  { board := withRandom
    scoreDelta := (slideAll board direction).2
    moved := moved
    won := won
    gameOver := gameOver }

/-- The function `initializeBoard`, with the draws of its two calls of `addRandomTile`. -/
def initializeBoard (size : Nat) (first second : Draw) : Board :=
  let board : Board := List.replicate size (List.replicate size 0)
  let withOne := addRandomTile board first
  let withTwo := addRandomTile withOne second
  withTwo

/-- The result of `rotateOnce` in closed form: `next[r][c] = rotated[size - 1 - c][r]`
(see `rotateOnce_eq`). -/
def rotateStep (rotated : Board) : Board :=
  let size := rotated.length
  (List.range size).map fun r => (List.range size).map fun c => cellD rotated (size - 1 - c) r

/-- A board with `n` rows of `n` cells each. -/
def IsSquare (n : Nat) (board : Board) : Prop :=
  board.length = n ∧ ∀ row ∈ board, row.length = n

/-- The left-right mirror image of a board. -/
def mirror (board : Board) : Board := board.map List.reverse

/-- Column `c` of a board, read from the top row down. -/
def column (board : Board) (c : Nat) : List Int := board.map fun row => row.getD c 0

/-- An `n × n` board on which no move is left: no cell is empty and no two horizontally or
vertically adjacent cells are equal. -/
def Blocked (n : Nat) (board : Board) : Prop :=
  IsSquare n board
    ∧ (∀ i < n, ∀ j < n, cellD board i j ≠ 0)
    ∧ (∀ i < n, ∀ j < n, j + 1 < n → cellD board i j ≠ cellD board i (j + 1))
    ∧ (∀ i < n, ∀ j < n, i + 1 < n → cellD board i j ≠ cellD board (i + 1) j)

/-- Every column of the `n × n` board is packed toward row 0: no empty cell lies above a
non-empty cell, and no two vertically adjacent non-empty cells are equal. -/
def PackedUp (n : Nat) (board : Board) : Prop :=
  ∀ i < n, ∀ j < n, i + 1 < n →
    (cellD board i j = 0 → cellD board (i + 1) j = 0)
      ∧ (cellD board i j ≠ 0 → cellD board i j ≠ cellD board (i + 1) j)

/-! ### The engine on JavaScript numbers

The definitions above compute with exact integers.  The code computes with IEEE-754
doubles: `filtered[i] * 2` overflows to `Infinity` from `2 ^ 1024` on and every `+=` of a
score rounds its result to 53 significant bits.  The definitions of `Js` repeat the engine
with these two operations as the code performs them, and with `undefined` for a read past
the end of a row. -/

namespace Js

/-- A value a cell or a score can take: a double that holds an integer (`fin v`), the two
infinities, `NaN`, and `undefined` (the result of reading past the end of a row). -/
inductive Num where
  | fin (v : Int)
  | posInf
  | negInf
  | nan
  | undef
deriving DecidableEq

/-- The number of low bits dropped when `m` is rounded to 53 significant bits: the least
`s` with `m / 2 ^ s < 2 ^ 53` (`fuel` bounds the search; `fuel = m` is enough). -/
def droppedBits : Nat → Nat → Nat
  | 0, _ => 0
  | fuel + 1, m => if m < 2 ^ 53 then 0 else droppedBits fuel (m / 2) + 1

/-- Rounding of an integer to the nearest double (53 significant bits, ties to even), the
exponent being unbounded. -/
def roundInt (x : Int) : Int :=
  let m := x.natAbs
  if m ≤ 2 ^ 53 then x
  else
    let s := droppedBits m m
    let q := m / 2 ^ s
    let r := m % 2 ^ s
    let q1 := if 2 ^ s < 2 * r ∨ (2 * r = 2 ^ s ∧ q % 2 = 1) then q + 1 else q
    if x < 0 then -((q1 * 2 ^ s : Nat) : Int) else ((q1 * 2 ^ s : Nat) : Int)

/-- The number `2 ^ 1024`: a double of this magnitude does not exist, the operation
returns an infinity. -/
def overflowBound : Nat := 2 ^ 256 * 2 ^ 256 * 2 ^ 256 * 2 ^ 256

/-- The double that an arithmetic operation with exact integer result `x` returns. -/
def ofInt (x : Int) : Num :=
  if (roundInt x).natAbs < overflowBound then Num.fin (roundInt x)
  else if x < 0 then Num.negInf else Num.posInf

/-- The product `a * 2`; doubling is exact unless it overflows. -/
def dbl : Num → Num
  | Num.fin v => if (2 * v).natAbs < overflowBound then Num.fin (2 * v)
      else if v < 0 then Num.negInf else Num.posInf
  | Num.posInf => Num.posInf
  | Num.negInf => Num.negInf
  | Num.nan => Num.nan
  | Num.undef => Num.nan

/-- The sum `a + b` of two numbers. -/
def add : Num → Num → Num
  | Num.fin a, Num.fin b => ofInt (a + b)
  | Num.fin _, Num.posInf => Num.posInf
  | Num.fin _, Num.negInf => Num.negInf
  | Num.posInf, Num.fin _ => Num.posInf
  | Num.negInf, Num.fin _ => Num.negInf
  | Num.posInf, Num.posInf => Num.posInf
  | Num.negInf, Num.negInf => Num.negInf
  | _, _ => Num.nan

/-- Strict equality `a === b`. -/
def jsEq : Num → Num → Bool
  | Num.fin a, Num.fin b => decide (a = b)
  | Num.posInf, Num.posInf => true
  | Num.negInf, Num.negInf => true
  | Num.undef, Num.undef => true
  | _, _ => false

/-- What `JSON.stringify` prints for a cell: the integer, or `null` for every other value. -/
def jsonKey : Num → Option Int
  | Num.fin v => some v
  | _ => none

/-- A board of JavaScript numbers. -/
abbrev Board := List (List Num)

/-- The function `cloneBoard`. -/
def cloneBoard (board : Board) : Board := board.map fun row => row.map fun v => v

/-- The array read `board[i][j]`, for `i < board.length`. -/
def cellAt (board : Board) (i j : Nat) : Num :=
  match board[i]? with
  | some row => (row[j]?).getD Num.undef
  | none => Num.undef

/-- The assignment `next[x][y] = v`; wherever the code assigns, `x` and `y` are in bounds. -/
def setCell (board : Board) (x y : Nat) (v : Num) : Board :=
  board.set x ((board.getD x []).set y v)

/-- The `for` loop of `slideLeft` over the rest of `filtered`, with the array `merged` and
the number `scoreDelta` built so far. -/
def mergeLoop : List Num → List Num → Num → List Num × Num
  | [], merged, score => (merged, score)
  | [a], merged, score => (merged ++ [a], score)
  | a :: b :: rest, merged, score =>
    if jsEq a b then mergeLoop rest (merged ++ [dbl a]) (add score (dbl a))
    else mergeLoop (b :: rest) (merged ++ [a]) score

/-- The function `slideLeft`. -/
def slideLeft (row : List Num) : List Num × Num :=
  let filtered := row.filter fun v => !jsEq v (Num.fin 0)
  let merged := (mergeLoop filtered [] (Num.fin 0)).1
  (merged ++ List.replicate (row.length - merged.length) (Num.fin 0),
    (mergeLoop filtered [] (Num.fin 0)).2)

/-- One pass of the outer loop of `rotateBoard`. -/
def rotateOnce (rotated : Board) : Board :=
  let size := rotated.length
  let next : Board := List.replicate size (List.replicate size (Num.fin 0))
  (List.range size).foldl
    (fun next i =>
      (List.range size).foldl
        (fun next j => setCell next j (size - 1 - i) (cellAt rotated i j)) next)
    next

/-- The function `rotateBoard`. -/
def rotateBoard (board : Board) (times : Int) : Board :=
  Nat.iterate rotateOnce (rotationCount times) (cloneBoard board)

/-- The list `empty` built by `addRandomTile`. -/
def emptyCells (board : Board) : List (Nat × Nat) :=
  let size := board.length
  (List.range size).flatMap fun i =>
    ((List.range size).filter fun j => jsEq (cellAt board i j) (Num.fin 0)).map fun j => (i, j)

/-- The function `addRandomTile`. -/
def addRandomTile (board : Board) (draw : Draw) : Board :=
  let empty := emptyCells board
  if empty.length = 0 then cloneBoard board
  else
    let p := empty.getD (draw.pick % empty.length) (0, 0)
    setCell (cloneBoard board) p.1 p.2 (if draw.small then Num.fin 2 else Num.fin 4)

/-- The function `hasPossibleMoves`. -/
def hasPossibleMoves (board : Board) : Bool :=
  let size := board.length
  ((List.range size).any fun i =>
      (List.range size).any fun j => jsEq (cellAt board i j) (Num.fin 0))
  || ((List.range size).any fun i => (List.range size).any fun j =>
        (decide (j + 1 < size) && jsEq (cellAt board i j) (cellAt board i (j + 1)))
        || (decide (i + 1 < size) && jsEq (cellAt board i j) (cellAt board (i + 1) j)))

/-- The first half of `move`: the board `unrotated` and `totalDelta`. -/
def slideAll (board : Board) (direction : String) : Board × Num :=
  let rotations := rotationsFor direction
  let working := rotateBoard board rotations
  let totalDelta := working.foldl (fun acc row => add acc (slideLeft row).2) (Num.fin 0)
  let after := working.map fun row => (slideLeft row).1
  (rotateBoard after (Int.tmod (4 - rotations) 4), totalDelta)

/-- The object returned by `move`. -/
structure MoveResult where
  board : Board
  scoreDelta : Num
  moved : Bool
  won : Bool
  gameOver : Bool

/-- The function `move`; `JSON.stringify` compares the boards cell by cell through
`jsonKey`. -/
def move (board : Board) (direction : String) (draw : Draw) : MoveResult :=
  let unrotated := (slideAll board direction).1
  let moved := decide (board.map (fun row => row.map jsonKey)
    ≠ unrotated.map (fun row => row.map jsonKey))
  let withRandom := if moved then addRandomTile unrotated draw else unrotated
  let won := withRandom.flatten.any fun v => jsEq v (Num.fin 2048)
  let gameOver := !won && !hasPossibleMoves withRandom
  { board := withRandom
    scoreDelta := (slideAll board direction).2
    moved := moved
    won := won
    gameOver := gameOver }

/-- The function `initializeBoard`. -/
def initializeBoard (size : Nat) (first second : Draw) : Board :=
  let board : Board := List.replicate size (List.replicate size (Num.fin 0))
  let withOne := addRandomTile board first
  let withTwo := addRandomTile withOne second
  withTwo

/-- A legal cell value: 0 or a power of two `2 ^ k` with `1 ≤ k ≤ m`. -/
def TileUpTo (m : Nat) (v : Num) : Prop :=
  v = Num.fin 0 ∨ ∃ k : Nat, 1 ≤ k ∧ k ≤ m ∧ v = Num.fin (2 ^ k)

/-- A legal cell value: 0 or a power of two that is at least 2. -/
def IsTile (v : Num) : Prop := v = Num.fin 0 ∨ ∃ k : Nat, 1 ≤ k ∧ v = Num.fin (2 ^ k)

/-- A board with `n` rows of `n` cells each, every cell satisfying `P`. -/
def BoardOf (P : Num → Prop) (n : Nat) (board : Board) : Prop :=
  board.length = n ∧ (∀ row ∈ board, row.length = n) ∧ ∀ row ∈ board, ∀ v ∈ row, P v

/-- A valid board of size `n`: `n` rows of `n` cells, every cell a legal value. -/
def Valid (n : Nat) (board : Board) : Prop := BoardOf IsTile n board

/-- A valid board of size `n` whose cells are at most `2 ^ m`. -/
def ValidUpTo (m n : Nat) (board : Board) : Prop := BoardOf (TileUpTo m) n board

end Js

/-- A board of integers read as a board of JavaScript numbers. -/
def toJs (board : Board) : Js.Board := board.map fun row => row.map Js.Num.fin

/-- The result of an array read `board[i][j]` as a JavaScript number. -/
def readJs : Option Int → Js.Num
  | some v => Js.Num.fin v
  | none => Js.Num.undef

/-! ## The row reducer -/

theorem mergeLoop_length_le (l : List Int) : (mergeLoop l).1.length ≤ l.length := by
  induction l using mergeLoop.induct with
  | case1 => simp [mergeLoop]
  | case2 a => simp [mergeLoop]
  | case3 a rest ih => simp only [mergeLoop, if_true, List.length_cons]; omega
  | case4 a b rest h ih =>
    simp only [mergeLoop, h, if_false, List.length_cons] at ih ⊢; omega

theorem mergeLoop_ne_zero (l : List Int) (hl : ∀ x ∈ l, x ≠ 0) :
    ∀ y ∈ (mergeLoop l).1, y ≠ 0 := by
  induction l using mergeLoop.induct with
  | case1 => simp [mergeLoop]
  | case2 a => simpa [mergeLoop] using hl
  | case3 a rest ih =>
    simp only [mergeLoop, if_true, List.mem_cons]
    rintro y (rfl | hy)
    · have := hl a (by simp); omega
    · exact ih (fun x hx => hl x (by simp [hx])) y hy
  | case4 a b rest h ih =>
    simp only [mergeLoop, h, if_false, List.mem_cons]
    rintro y (rfl | hy)
    · exact hl y (by simp)
    · exact ih (fun x hx => hl x (List.mem_cons_of_mem _ hx)) y hy

theorem slideLeft_length (row : List Int) : (slideLeft row).1.length = row.length := by
  have h1 := mergeLoop_length_le (row.filter fun v => v ≠ 0)
  have h2 := List.length_filter_le (fun v : Int => decide (v ≠ 0)) row
  simp only [slideLeft, List.length_append, List.length_replicate]
  omega

theorem slideLeft_zeros_last (row : List Int) :
    List.Pairwise (fun a b => a = 0 → b = 0) (slideLeft row).1 := by
  simp only [slideLeft]
  rw [List.pairwise_append]
  refine ⟨?_, ?_, ?_⟩
  · have hnz := mergeLoop_ne_zero (row.filter fun v => v ≠ 0) (by simp)
    exact List.Pairwise.imp_of_mem (R := fun _ _ => True)
      (fun ha _ _ h0 => absurd h0 (hnz _ ha)) (List.pairwise_of_forall (fun _ _ => trivial))
  · exact List.pairwise_replicate.2 (Or.inr (fun h => h))
  · intro a _ b hb _
    exact (List.mem_replicate.1 hb).2

/-- C2. Shape of the result of `slideLeft`: it has the length of the input row, and no
zero in it is followed (at any later position) by a non-zero value. -/
theorem slideLeft_shape (row : List Int) :
    (slideLeft row).1.length = row.length
      ∧ ∀ i j : Nat, i < j → j < row.length →
          (slideLeft row).1[i]? = some 0 → (slideLeft row).1[j]? = some 0 := by
  refine ⟨slideLeft_length row, ?_⟩
  intro i j hij hj hi
  have hp := slideLeft_zeros_last row
  have hlen := slideLeft_length row
  have hjl : j < (slideLeft row).1.length := by omega
  have hil : i < (slideLeft row).1.length := by omega
  rw [List.getElem?_eq_getElem hil] at hi
  rw [List.getElem?_eq_getElem hjl]
  have := List.pairwise_iff_getElem.1 hp i j hil hjl hij (by simpa using hi)
  simp [this]

/-- Witness of C2: the row `[0, 2, 0, 2, 4]` becomes `[4, 4, 0, 0, 0]`; the zero at
position 2 is followed by a zero at position 4. -/
theorem slideLeft_shape_witness :
    (slideLeft [0, 2, 0, 2, 4]).1.length = 5
      ∧ (slideLeft [0, 2, 0, 2, 4]).1[2]? = some 0
      ∧ (slideLeft [0, 2, 0, 2, 4]).1[4]? = some 0 :=
  ⟨(slideLeft_shape [0, 2, 0, 2, 4]).1, by decide,
   (slideLeft_shape [0, 2, 0, 2, 4]).2 2 4 (by decide) (by decide) (by decide)⟩

/-! ## Cells and rotation -/

theorem cloneBoard_eq (board : Board) : cloneBoard board = board := by
  simp [cloneBoard]

theorem cellAt_of_lt {board : Board} {i j : Nat} (hi : i < board.length)
    (hj : j < board[i].length) : cellAt board i j = some (board[i][j]) := by
  simp [cellAt, List.getElem?_eq_getElem hi, List.getElem?_eq_getElem hj]

theorem IsSquare.row_length {n : Nat} {board : Board} (h : IsSquare n board) {i : Nat}
    (hi : i < board.length) : board[i].length = n :=
  h.2 _ (List.getElem_mem hi)

theorem IsSquare.cellAt_eq {n : Nat} {board : Board} (h : IsSquare n board) {i j : Nat}
    (hi : i < n) (hj : j < n) : cellAt board i j = some (cellD board i j) := by
  have hi' : i < board.length := by rw [h.1]; exact hi
  have hj' : j < board[i].length := by rw [h.row_length hi']; exact hj
  simp [cellD, cellAt_of_lt hi' hj']

theorem IsSquare.ext {n : Nat} {a b : Board} (ha : IsSquare n a) (hb : IsSquare n b)
    (h : ∀ i j, i < n → j < n → cellD a i j = cellD b i j) : a = b := by
  refine List.ext_getElem (by rw [ha.1, hb.1]) (fun i hi hi' => ?_)
  refine List.ext_getElem (by rw [ha.row_length hi, hb.row_length hi']) (fun j hj hj' => ?_)
  have hin : i < n := by rw [← ha.1]; exact hi
  have hjn : j < n := by rw [← ha.row_length hi]; exact hj
  have := h i j hin hjn
  simpa [cellD, cellAt_of_lt hi hj, cellAt_of_lt hi' hj'] using this

theorem cellAt_setCell_self (board : Board) (x y : Nat) (v : Int) {w : Int}
    (h : cellAt board x y = some w) : cellAt (setCell board x y v) x y = some v := by
  simp only [cellAt] at h
  cases hb : board[x]? with
  | none => simp [hb] at h
  | some row =>
    simp only [hb, Option.some_bind] at h
    have hx : x < board.length := (List.getElem?_eq_some_iff.1 hb).1
    have hy : y < row.length := (List.getElem?_eq_some_iff.1 h).1
    simp [cellAt, setCell, List.getElem?_set, hx, hb, hy]

theorem cellAt_setCell_other (board : Board) (x y : Nat) (v : Int) (i j : Nat)
    (h : (i, j) ≠ (x, y)) : cellAt (setCell board x y v) i j = cellAt board i j := by
  simp only [cellAt, setCell]
  by_cases hix : x = i
  · subst hix
    have hj : y ≠ j := fun hy => h (by rw [hy])
    rw [List.getElem?_set]
    by_cases hx : x < board.length
    · simp [hx, List.getElem?_eq_getElem hx, List.getElem?_set_ne hj]
    · simp [hx, List.getElem?_eq_none (not_lt.1 hx)]
  · rw [List.getElem?_set_ne hix]

theorem zeros_isSquare (size : Nat) :
    IsSquare size (List.replicate size (List.replicate size (0 : Int))) := by
  constructor
  · simp
  · intro row hrow
    rw [(List.mem_replicate.1 hrow).2]; simp

theorem cellAt_zeros {size i j : Nat} (hi : i < size) (hj : j < size) :
    cellAt (List.replicate size (List.replicate size (0 : Int))) i j = some 0 := by
  simp [cellAt, List.getElem?_replicate, hi, hj]

theorem setCell_isSquare {n : Nat} {board : Board} (h : IsSquare n board) (x y : Nat) (v : Int) :
    IsSquare n (setCell board x y v) := by
  constructor
  · simpa [setCell] using h.1
  · intro row hrow
    simp only [setCell] at hrow
    by_cases hx : x < board.length
    · rcases List.mem_or_eq_of_mem_set hrow with hm | rfl
      · exact h.2 row hm
      · rw [List.length_set, List.getD_eq_getElem _ _ hx]; exact h.row_length hx
    · rw [List.set_eq_of_length_le (not_lt.1 hx)] at hrow
      exact h.2 row hrow

theorem cellD_setCell {n : Nat} {board : Board} (h : IsSquare n board) {x y : Nat}
    (hx : x < n) (hy : y < n) (v : Int) (r c : Nat) :
    cellD (setCell board x y v) r c = if r = x ∧ c = y then v else cellD board r c := by
  by_cases hrc : r = x ∧ c = y
  · obtain ⟨rfl, rfl⟩ := hrc
    simp [cellD, cellAt_setCell_self _ _ _ _ (h.cellAt_eq hx hy)]
  · have hne : (r, c) ≠ (x, y) := fun hc => hrc ⟨congrArg Prod.fst hc, congrArg Prod.snd hc⟩
    simp [cellD, cellAt_setCell_other _ _ _ _ _ _ hne, hrc]

theorem rotateStep_isSquare (board : Board) : IsSquare board.length (rotateStep board) := by
  constructor
  · simp [rotateStep]
  · intro row hrow
    simp only [rotateStep, List.mem_map] at hrow
    obtain ⟨r, _, rfl⟩ := hrow
    simp

theorem cellD_rotateStep (board : Board) {r c : Nat} (hr : r < board.length)
    (hc : c < board.length) :
    cellD (rotateStep board) r c = cellD board (board.length - 1 - c) r := by
  simp [cellD, cellAt, rotateStep, List.getElem?_map, List.getElem?_range, hr, hc]

/-- The inner loop of `rotateOnce` for a fixed `i`, run for `j < m`. -/
theorem rotate_inner_loop {n : Nat} (rotated : Board) {i : Nat} (hi : i < n) {next : Board}
    (h : IsSquare n next) (m : Nat) (hm : m ≤ n) :
    IsSquare n ((List.range m).foldl
        (fun next j => setCell next j (n - 1 - i) (cellD rotated i j)) next)
      ∧ ∀ r c, cellD ((List.range m).foldl
          (fun next j => setCell next j (n - 1 - i) (cellD rotated i j)) next) r c
          = if r < m ∧ c = n - 1 - i then cellD rotated i r else cellD next r c := by
  induction m with
  | zero => exact ⟨h, fun r c => by simp⟩
  | succ m ih =>
    obtain ⟨hsq, hcell⟩ := ih (by omega)
    rw [List.range_succ, List.foldl_append]
    refine ⟨setCell_isSquare hsq _ _ _, fun r c => ?_⟩
    simp only [List.foldl_cons, List.foldl_nil]
    rw [cellD_setCell hsq (by omega) (by omega), hcell]
    by_cases hr : r = m
    · subst hr
      by_cases hc : c = n - 1 - i <;> simp [hc]
    · have : r < m + 1 ↔ r < m := by omega
      simp [hr, this]

/-- The outer loop of `rotateOnce`, run for `i < m`. -/
theorem rotate_outer_loop {n : Nat} (rotated : Board) (m : Nat) (hm : m ≤ n) :
    IsSquare n ((List.range m).foldl
        (fun next i => (List.range n).foldl
          (fun next j => setCell next j (n - 1 - i) (cellD rotated i j)) next)
        (List.replicate n (List.replicate n 0)))
      ∧ ∀ r c, r < n → c < n → cellD ((List.range m).foldl
          (fun next i => (List.range n).foldl
            (fun next j => setCell next j (n - 1 - i) (cellD rotated i j)) next)
          (List.replicate n (List.replicate n 0))) r c
          = if n - 1 - c < m then cellD rotated (n - 1 - c) r else 0 := by
  induction m with
  | zero =>
    refine ⟨zeros_isSquare n, fun r c hr hc => ?_⟩
    simp [cellD, cellAt_zeros hr hc]
  | succ m ih =>
    obtain ⟨hsq, hcell⟩ := ih (by omega)
    rw [List.range_succ, List.foldl_append]
    simp only [List.foldl_cons, List.foldl_nil]
    obtain ⟨hsq', hcell'⟩ := rotate_inner_loop rotated (show m < n by omega) hsq n le_rfl
    refine ⟨hsq', fun r c hr hc => ?_⟩
    rw [hcell', hcell r c hr hc]
    by_cases hcm : c = n - 1 - m
    · have h1 : n - 1 - c = m := by omega
      rw [if_pos ⟨hr, hcm⟩, if_pos (by omega), h1]
    · have h1 : n - 1 - c < m + 1 ↔ n - 1 - c < m := by omega
      simp [hcm, h1]

theorem rotateOnce_eq (rotated : Board) : rotateOnce rotated = rotateStep rotated := by
  obtain ⟨hsq, hcell⟩ := rotate_outer_loop rotated rotated.length le_rfl
  refine IsSquare.ext hsq (rotateStep_isSquare rotated) (fun r c hr hc => ?_)
  rw [cellD_rotateStep rotated hr hc]
  have := hcell r c hr hc
  rw [if_pos (by omega)] at this
  exact this

theorem rotateBoard_eq (board : Board) (times : Int) :
    rotateBoard board times = rotateStep^[rotationCount times] board := by
  have h : rotateOnce = rotateStep := funext rotateOnce_eq
  simp only [rotateBoard, h, cloneBoard_eq]

theorem iterate_rotateStep_isSquare {n : Nat} {board : Board} (h : IsSquare n board) (k : Nat) :
    IsSquare n (rotateStep^[k] board) := by
  induction k generalizing board with
  | zero => exact h
  | succ k ih =>
    rw [Function.iterate_succ_apply]
    exact ih (h.1 ▸ rotateStep_isSquare board)

theorem rotateStep_four {n : Nat} {board : Board} (h : IsSquare n board) :
    rotateStep^[4] board = board := by
  have h1 : IsSquare n (rotateStep board) := iterate_rotateStep_isSquare h 1
  have h2 : IsSquare n (rotateStep (rotateStep board)) := iterate_rotateStep_isSquare h 2
  have h3 : IsSquare n (rotateStep (rotateStep (rotateStep board))) :=
    iterate_rotateStep_isSquare h 3
  refine IsSquare.ext (iterate_rotateStep_isSquare h 4) h (fun i j hi hj => ?_)
  simp only [Function.iterate_succ_apply, Function.iterate_zero_apply]
  rw [cellD_rotateStep _ (by rw [h3.1]; exact hi) (by rw [h3.1]; exact hj), h3.1,
    cellD_rotateStep _ (by rw [h2.1]; omega) (by rw [h2.1]; omega), h2.1,
    cellD_rotateStep _ (by rw [h1.1]; omega) (by rw [h1.1]; omega), h1.1,
    cellD_rotateStep _ (by rw [h.1]; omega) (by rw [h.1]; omega), h.1]
  congr 1 <;> omega

theorem rotateBoard_eq_iterate (board : Board) (k : Nat) (hk : k < 4) :
    rotateBoard board (k : Int) = rotateStep^[k] board := by
  have : rotationCount (k : Int) = k := by
    interval_cases k <;> decide
  rw [rotateBoard_eq, this]

theorem foldl_add_eq_sum {α : Type} (f : α → Int) (l : List α) (z : Int) :
    l.foldl (fun acc x => acc + f x) z = z + (l.map f).sum := by
  induction l generalizing z with
  | nil => simp
  | cons x l ih => simp [ih, add_assoc]

theorem rotationsFor_cases (direction : String) :
    ∃ k : Nat, k < 4 ∧ rotationsFor direction = (k : Int)
      ∧ Int.tmod (4 - rotationsFor direction) 4 = (((4 - k) % 4 : Nat) : Int) := by
  unfold rotationsFor
  split_ifs
  · exact ⟨1, by decide, rfl, by decide⟩
  · exact ⟨2, by decide, rfl, by decide⟩
  · exact ⟨3, by decide, rfl, by decide⟩
  · exact ⟨0, by decide, rfl, by decide⟩

/-- The two components of `slideAll`, with the rotations written as iterates of
`rotateStep`. -/
theorem slideAll_eq (board : Board) (direction : String) :
    ∃ k : Nat, k < 4 ∧ rotationsFor direction = (k : Int) ∧
      slideAll board direction =
        (rotateStep^[(4 - k) % 4] ((rotateStep^[k] board).map fun row => (slideLeft row).1),
          ((rotateStep^[k] board).map fun row => (slideLeft row).2).sum) := by
  obtain ⟨k, hk, h1, h2⟩ := rotationsFor_cases direction
  refine ⟨k, hk, h1, ?_⟩
  simp only [slideAll, h2]
  rw [h1, rotateBoard_eq_iterate _ k hk, rotateBoard_eq_iterate _ _ (Nat.mod_lt _ (by decide)),
    foldl_add_eq_sum, zero_add]

theorem map_slideLeft_isSquare {n : Nat} {board : Board} (h : IsSquare n board) :
    IsSquare n (board.map fun row => (slideLeft row).1) := by
  constructor
  · simpa using h.1
  · intro row hrow
    simp only [List.mem_map] at hrow
    obtain ⟨r, hr, rfl⟩ := hrow
    rw [slideLeft_length]; exact h.2 r hr

theorem iterate_back {n : Nat} {board : Board} (h : IsSquare n board) (k : Nat) (hk : k < 4) :
    rotateStep^[(4 - k) % 4] (rotateStep^[k] board) = board
      ∧ rotateStep^[k] (rotateStep^[(4 - k) % 4] board) = board := by
  rw [← Function.iterate_add_apply, ← Function.iterate_add_apply]
  interval_cases k
  · exact ⟨rfl, rfl⟩
  · exact ⟨rotateStep_four h, rotateStep_four h⟩
  · exact ⟨rotateStep_four h, rotateStep_four h⟩
  · exact ⟨rotateStep_four h, rotateStep_four h⟩

/-! ## Moving left and right -/

theorem slideAll_left (board : Board) :
    slideAll board "left" =
      (board.map (fun row => (slideLeft row).1), (board.map fun row => (slideLeft row).2).sum) := by
  have h0 : rotationsFor "left" = 0 := by decide
  have h1 : Int.tmod (4 - 0) 4 = 0 := by decide
  have h2 : rotationCount 0 = 0 := by decide
  simp only [slideAll, h0, h1, rotateBoard_eq, h2, Function.iterate_zero_apply,
    foldl_add_eq_sum, zero_add]

theorem cellD_reverse_map_reverse {n : Nat} {board : Board} (h : IsSquare n board) {i j : Nat}
    (hi : i < n) (hj : j < n) :
    cellD (board.map List.reverse).reverse i j = cellD board (n - 1 - i) (n - 1 - j) := by
  have hi' : n - 1 - i < board.length := by rw [h.1]; omega
  have hrow : board[n - 1 - i].length = n := h.row_length hi'
  have hj' : n - 1 - j < board[n - 1 - i].length := by rw [hrow]; omega
  rw [cellD, cellD, cellAt_of_lt hi' hj']
  simp only [cellAt]
  rw [List.getElem?_reverse (by simpa [h.1] using hi)]
  simp only [List.length_map, h.1, List.getElem?_map, List.getElem?_eq_getElem hi',
    Option.map_some', Option.some_bind]
  rw [List.getElem?_reverse (by rw [hrow]; exact hj), hrow, List.getElem?_eq_getElem hj']

theorem mirror_flip_isSquare {n : Nat} {board : Board} (h : IsSquare n board) :
    IsSquare n (board.map List.reverse).reverse := by
  constructor
  · simpa using h.1
  · intro row hrow
    simp only [List.mem_reverse, List.mem_map] at hrow
    obtain ⟨r, hr, rfl⟩ := hrow
    simpa using h.2 r hr

theorem rotateStep_two {n : Nat} {board : Board} (h : IsSquare n board) :
    rotateStep^[2] board = (board.map List.reverse).reverse := by
  have h1 : IsSquare n (rotateStep board) := iterate_rotateStep_isSquare h 1
  refine IsSquare.ext (iterate_rotateStep_isSquare h 2) (mirror_flip_isSquare h)
    (fun i j hi hj => ?_)
  simp only [Function.iterate_succ_apply, Function.iterate_zero_apply]
  rw [cellD_rotateStep _ (by rw [h1.1]; exact hi) (by rw [h1.1]; exact hj), h1.1,
    cellD_rotateStep _ (by rw [h.1]; omega) (by rw [h.1]; exact hi), h.1,
    cellD_reverse_map_reverse h hi hj]

theorem slideAll_right {n : Nat} {board : Board} (h : IsSquare n board) :
    slideAll board "right" =
      (board.map (fun row => (slideLeft row.reverse).1.reverse),
        (board.map fun row => (slideLeft row.reverse).2).sum) := by
  have h0 : rotationsFor "right" = 2 := by decide
  have h1 : Int.tmod (4 - 2) 4 = 2 := by decide
  have h2 : rotationCount 2 = 2 := by decide
  simp only [slideAll, h0, h1, rotateBoard_eq, h2, foldl_add_eq_sum, zero_add]
  rw [rotateStep_two h, rotateStep_two (map_slideLeft_isSquare (mirror_flip_isSquare h))]
  refine Prod.ext ?_ ?_
  · simp [List.map_reverse, Function.comp_def]
  · simp [List.map_reverse, List.sum_reverse, Function.comp_def]

/-- C3. Move left: the board computed by `move board "left"` before any tile is spawned has
row `i` equal to the row `slideLeft` returns for `board[i]`, `scoreDelta` is the sum of the
score deltas of the rows, and `moved` tells whether that board differs from the input. -/
theorem move_left_rows (board : Board) (draw : Draw) :
    (slideAll board "left").1 = board.map (fun row => (slideLeft row).1)
      ∧ (move board "left" draw).scoreDelta = (board.map fun row => (slideLeft row).2).sum
      ∧ ((move board "left" draw).moved = true
          ↔ board ≠ board.map (fun row => (slideLeft row).1)) := by
  refine ⟨by rw [slideAll_left], ?_, ?_⟩
  · simp only [move]; rw [slideAll_left]
  · simp only [move]; rw [slideAll_left]; simp

/-- C4. Move right on an `n × n` board: the board computed before any tile is spawned has
row `i` equal to the reverse of the row `slideLeft` returns for the reverse of `board[i]`,
`scoreDelta` is the sum of those rows' score deltas, and both agree with the mirror image of
moving the mirrored board left. -/
theorem move_right_rows (n : Nat) (board : Board) (draw : Draw) (h : IsSquare n board) :
    (slideAll board "right").1 = board.map (fun row => (slideLeft row.reverse).1.reverse)
      ∧ (move board "right" draw).scoreDelta
          = (board.map fun row => (slideLeft row.reverse).2).sum
      ∧ (slideAll board "right").1 = mirror (slideAll (mirror board) "left").1
      ∧ (slideAll board "right").2 = (slideAll (mirror board) "left").2 := by
  refine ⟨by rw [slideAll_right h], ?_, ?_, ?_⟩
  · simp only [move]; rw [slideAll_right h]
  · rw [slideAll_right h, slideAll_left]; simp [mirror, Function.comp_def]
  · rw [slideAll_right h, slideAll_left]; simp [mirror, Function.comp_def]

/-- Witness of C3: on `[[2,2,0,0],[0,0,0,0],[0,0,0,0],[0,0,0,0]]` row 0 becomes
`[4,0,0,0]`, the score delta is 4 and the move counts as a move. -/
theorem move_left_rows_witness :
    (slideAll [[2, 2, 0, 0], [0, 0, 0, 0], [0, 0, 0, 0], [0, 0, 0, 0]] "left").1
        = [[4, 0, 0, 0], [0, 0, 0, 0], [0, 0, 0, 0], [0, 0, 0, 0]]
      ∧ (move [[2, 2, 0, 0], [0, 0, 0, 0], [0, 0, 0, 0], [0, 0, 0, 0]] "left" ⟨0, true⟩).scoreDelta
        = 4
      ∧ (move [[2, 2, 0, 0], [0, 0, 0, 0], [0, 0, 0, 0], [0, 0, 0, 0]] "left" ⟨0, true⟩).moved
        = true :=
  ⟨(move_left_rows _ ⟨0, true⟩).1.trans (by decide),
   (move_left_rows _ ⟨0, true⟩).2.1.trans (by decide),
   (move_left_rows _ ⟨0, true⟩).2.2.2 (by decide)⟩

/-- Witness of C4: on a 4 × 4 board the row `[2,2,0,0]` becomes `[0,0,0,4]`. -/
theorem move_right_rows_witness :
    IsSquare 4 [[2, 2, 0, 0], [0, 0, 0, 0], [0, 4, 4, 8], [2, 0, 2, 2]]
      ∧ (slideAll [[2, 2, 0, 0], [0, 0, 0, 0], [0, 4, 4, 8], [2, 0, 2, 2]] "right").1
          = [[0, 0, 0, 4], [0, 0, 0, 0], [0, 0, 8, 8], [0, 0, 2, 4]]
      ∧ (move [[2, 2, 0, 0], [0, 0, 0, 0], [0, 4, 4, 8], [2, 0, 2, 2]] "right" ⟨0, true⟩).scoreDelta
          = 16 :=
  ⟨by simp [IsSquare],
   (move_right_rows 4 _ ⟨0, true⟩ (by simp [IsSquare])).1.trans (by decide),
   (move_right_rows 4 _ ⟨0, true⟩ (by simp [IsSquare])).2.1.trans (by decide)⟩

/-! ## Moving up and down

`move` turns the board once clockwise for "up" and three times for "down".  After one
clockwise turn row `c` of the working board is column `c` of the input read from the last
row up to row 0, so "up" packs every column toward the last row and "down" toward row 0. -/

theorem column_length (board : Board) (c : Nat) : (column board c).length = board.length := by
  simp [column]

theorem getElem_column {n : Nat} {board : Board} (h : IsSquare n board) {i c : Nat}
    (hi : i < n) (hc : c < n) (hi' : i < (column board c).length) :
    (column board c)[i] = cellD board i c := by
  have hib : i < board.length := by rw [h.1]; exact hi
  have hcb : c < board[i].length := by rw [h.row_length hib]; exact hc
  simp [column, cellD, cellAt_of_lt hib hcb, List.getElem?_eq_getElem hcb]

theorem getElem_row {board : Board} {i j : Nat}
    (hi : i < board.length) (hj : j < board[i].length) : board[i][j] = cellD board i j := by
  simp [cellD, cellAt_of_lt hi hj]

theorem cellD_rotateStep_three {n : Nat} {board : Board} (h : IsSquare n board) {i j : Nat}
    (hi : i < n) (hj : j < n) :
    cellD (rotateStep^[3] board) i j = cellD board j (n - 1 - i) := by
  have h1 : IsSquare n (rotateStep board) := iterate_rotateStep_isSquare h 1
  have h2 : IsSquare n (rotateStep (rotateStep board)) := iterate_rotateStep_isSquare h 2
  simp only [Function.iterate_succ_apply, Function.iterate_zero_apply]
  rw [cellD_rotateStep _ (by rw [h2.1]; exact hi) (by rw [h2.1]; exact hj), h2.1,
    cellD_rotateStep _ (by rw [h1.1]; omega) (by rw [h1.1]; exact hi), h1.1,
    cellD_rotateStep _ (by rw [h.1]; omega) (by rw [h.1]; omega), h.1]
  congr 1; omega

/-- What `move board "up"` does on an `n × n` board: every column of the board before the
spawn, read from the last row up to row 0, is `slideLeft` of that column of the input read
the same way: the tiles are packed toward the last row. -/
theorem slideAll_up_columns {n : Nat} {board : Board} (h : IsSquare n board) {c : Nat}
    (hc : c < n) :
    (column (slideAll board "up").1 c).reverse = (slideLeft (column board c).reverse).1 := by
  have h0 : rotationsFor "up" = 1 := by decide
  have h1 : Int.tmod (4 - 1) 4 = 3 := by decide
  have h2 : rotationCount 1 = 1 := by decide
  have h3 : rotationCount 3 = 3 := by decide
  have hw : IsSquare n (rotateStep board) := iterate_rotateStep_isSquare h 1
  have ha := map_slideLeft_isSquare hw
  have hu : IsSquare n (rotateStep^[3] ((rotateStep board).map fun row => (slideLeft row).1)) :=
    iterate_rotateStep_isSquare ha 3
  have hcw : c < (rotateStep board).length := by rw [hw.1]; exact hc
  have hrow : (rotateStep board)[c] = (column board c).reverse := by
    refine List.ext_getElem ?_ (fun x hx hx' => ?_)
    · rw [hw.row_length, List.length_reverse, column_length, h.1]
    · have hxn : x < n := by rw [hw.row_length] at hx; exact hx
      rw [getElem_row, cellD_rotateStep _ (by rw [h.1]; exact hc) (by rw [h.1]; exact hxn),
        List.getElem_reverse, getElem_column h (by rw [column_length, h.1]; omega) hc]
      rw [column_length, h.1]
  have hval : (slideAll board "up").1
      = rotateStep^[3] ((rotateStep board).map fun row => (slideLeft row).1) := by
    simp only [slideAll, h0, h1, rotateBoard_eq, h2, h3, Function.iterate_succ_apply,
      Function.iterate_zero_apply]
  rw [hval, ← hrow]
  refine List.ext_getElem ?_ (fun x hx hx' => ?_)
  · rw [List.length_reverse, column_length, hu.1, slideLeft_length, hw.row_length]
  · have hxn : x < n := by rw [List.length_reverse, column_length, hu.1] at hx; exact hx
    rw [List.getElem_reverse, getElem_column hu (by rw [column_length, hu.1]; omega) hc,
      column_length, hu.1, cellD_rotateStep_three ha (by omega) hc,
      show n - 1 - (n - 1 - x) = x by omega]
    have hca : c < ((rotateStep board).map fun row => (slideLeft row).1).length := by
      rw [ha.1]; exact hc
    have hxa : x < (((rotateStep board).map fun row => (slideLeft row).1)[c]).length := by
      rw [ha.row_length hca]; exact hxn
    rw [← getElem_row hca hxa]
    simp

/-- What `move board "down"` does on an `n × n` board: every column of the board before the
spawn, read from row 0 down, is `slideLeft` of that column of the input read the same way:
the tiles are packed toward row 0. -/
theorem slideAll_down_columns {n : Nat} {board : Board} (h : IsSquare n board) {c : Nat}
    (hc : c < n) :
    column (slideAll board "down").1 c = (slideLeft (column board c)).1 := by
  have h0 : rotationsFor "down" = 3 := by decide
  have h1 : Int.tmod (4 - 3) 4 = 1 := by decide
  have h2 : rotationCount 1 = 1 := by decide
  have h3 : rotationCount 3 = 3 := by decide
  have hw : IsSquare n (rotateStep^[3] board) := iterate_rotateStep_isSquare h 3
  have ha := map_slideLeft_isSquare hw
  have hu : IsSquare n (rotateStep ((rotateStep^[3] board).map fun row => (slideLeft row).1)) :=
    iterate_rotateStep_isSquare ha 1
  have hcw : n - 1 - c < (rotateStep^[3] board).length := by rw [hw.1]; omega
  have hrow : (rotateStep^[3] board)[n - 1 - c] = column board c := by
    refine List.ext_getElem ?_ (fun x hx hx' => ?_)
    · rw [hw.row_length, column_length, h.1]
    · have hxn : x < n := by rw [hw.row_length] at hx; exact hx
      rw [getElem_row, cellD_rotateStep_three h (by omega) hxn, getElem_column h hxn (by omega),
        show n - 1 - (n - 1 - c) = c by omega]
  have hval : (slideAll board "down").1
      = rotateStep ((rotateStep^[3] board).map fun row => (slideLeft row).1) := by
    simp only [slideAll, h0, h1, rotateBoard_eq, h2, h3, Function.iterate_succ_apply,
      Function.iterate_zero_apply]
  rw [hval, ← hrow]
  refine List.ext_getElem ?_ (fun x hx hx' => ?_)
  · rw [column_length, hu.1, slideLeft_length, hw.row_length]
  · have hxn : x < n := by rw [column_length, hu.1] at hx; exact hx
    rw [getElem_column hu hxn hc, cellD_rotateStep _ (by rw [ha.1]; exact hxn)
      (by rw [ha.1]; exact hc), ha.1]
    have hca : n - 1 - c < ((rotateStep^[3] board).map fun row => (slideLeft row).1).length := by
      rw [ha.1]; omega
    have hxa : x < (((rotateStep^[3] board).map fun row => (slideLeft row).1)[n - 1 - c]).length := by
      rw [ha.row_length hca]; exact hxn
    rw [← getElem_row hca hxa]
    simp

/-- C5, evaluated on the board `[[2,0],[0,0]]`, whose only tile is already at row 0:
`move` with "up" slides the tile to the last row, so the board before the spawn is
`[[0,0],[2,0]]`, `moved` is true and a tile is spawned. -/
theorem move_up_packed_board :
    PackedUp 2 [[2, 0], [0, 0]]
      ∧ (slideAll [[2, 0], [0, 0]] "up").1 = [[0, 0], [2, 0]]
      ∧ (move [[2, 0], [0, 0]] "up" ⟨0, true⟩).moved = true
      ∧ (move [[2, 0], [0, 0]] "up" ⟨0, true⟩).board = [[2, 0], [2, 0]] := by
  refine ⟨by unfold PackedUp; decide, by decide, by decide, by decide⟩

/-- C6, evaluated on the board `[[2,0],[0,0]]`: `move` with "down" leaves the tile at
row 0 (`moved = false`), while `slideLeft` of column 0 read from the last row up, `[0, 2]`,
is `[2, 0]`. -/
theorem move_down_top_tile :
    (slideAll [[2, 0], [0, 0]] "down").1 = [[2, 0], [0, 0]]
      ∧ (move [[2, 0], [0, 0]] "down" ⟨0, true⟩).moved = false
      ∧ (column (slideAll [[2, 0], [0, 0]] "down").1 0).reverse = [0, 2]
      ∧ (slideLeft (column [[2, 0], [0, 0]] 0).reverse).1 = [2, 0] := by
  refine ⟨by decide, by decide, by decide, by decide⟩

/-! ## Moves that change nothing -/

theorem mergeLoop_score_zero (l : List Int) (h : (mergeLoop l).1.length = l.length) :
    (mergeLoop l).2 = 0 := by
  induction l using mergeLoop.induct with
  | case1 => simp [mergeLoop]
  | case2 a => simp [mergeLoop]
  | case3 a rest ih =>
    have := mergeLoop_length_le rest
    simp only [mergeLoop, if_true, List.length_cons] at h
    omega
  | case4 a b rest hne ih =>
    simp only [mergeLoop, hne, if_false, List.length_cons] at h ⊢
    exact ih (by simpa using h)

theorem slideLeft_fixed_score (row : List Int) (h : (slideLeft row).1 = row) :
    (slideLeft row).2 = 0 := by
  have hnz := mergeLoop_ne_zero (row.filter fun v => v ≠ 0) (by simp)
  have hfil : ((slideLeft row).1).filter (fun v => v ≠ 0)
      = (mergeLoop (row.filter fun v => v ≠ 0)).1 := by
    simp only [slideLeft, List.filter_append]
    rw [List.filter_eq_self.2 (fun x hx => by simpa using hnz x hx)]
    simp [List.filter_replicate]
  rw [h] at hfil
  exact mergeLoop_score_zero _ (by rw [← hfil])

theorem slideAll_fst_eq_iff {n k : Nat} {board : Board} (h : IsSquare n board) (hk : k < 4) :
    rotateStep^[(4 - k) % 4] ((rotateStep^[k] board).map fun row => (slideLeft row).1) = board
      ↔ ((rotateStep^[k] board).map fun row => (slideLeft row).1) = rotateStep^[k] board := by
  have hw := iterate_rotateStep_isSquare h k
  have ha := map_slideLeft_isSquare hw
  constructor
  · intro hu
    have := congrArg (fun b => rotateStep^[k] b) hu
    simpa [(iterate_back ha k hk).2] using this
  · intro he
    rw [he]; exact (iterate_back h k hk).1

theorem map_fixed_mem {α : Type} (f : α → α) (l : List α) (h : l.map f = l) :
    ∀ x ∈ l, f x = x := by
  induction l with
  | nil => simp
  | cons a l ih =>
    simp only [List.map_cons, List.cons.injEq] at h
    intro x hx
    rcases List.mem_cons.1 hx with rfl | hx
    · exact h.1
    · exact ih h.2 x hx

theorem sum_eq_zero_of_fixed (w : Board) (h : (w.map fun row => (slideLeft row).1) = w) :
    (w.map fun row => (slideLeft row).2).sum = 0 := by
  have hrow : ∀ row ∈ w, (slideLeft row).1 = row := map_fixed_mem _ w h
  apply List.sum_eq_zero
  intro x hx
  simp only [List.mem_map] at hx
  obtain ⟨row, hr, rfl⟩ := hx
  exact slideLeft_fixed_score row (hrow row hr)

/-- C7. No-op move on an `n × n` board: if rotating, sliding every row and rotating back
gives the input board, `move` returns `moved = false`, the input board (no tile spawned) and
`scoreDelta = 0`; if it gives another board, `moved = true`. -/
theorem move_noop (n : Nat) (board : Board) (direction : String) (draw : Draw)
    (h : IsSquare n board) :
    ((slideAll board direction).1 = board →
        (move board direction draw).moved = false
          ∧ (move board direction draw).board = board
          ∧ (move board direction draw).scoreDelta = 0)
      ∧ ((slideAll board direction).1 ≠ board → (move board direction draw).moved = true) := by
  constructor
  · intro hu
    refine ⟨by simp [move, hu], by simp [move, hu], ?_⟩
    obtain ⟨k, hk, _, he⟩ := slideAll_eq board direction
    rw [he] at hu
    simp only [move, he]
    exact sum_eq_zero_of_fixed _ ((slideAll_fst_eq_iff h hk).1 hu)
  · intro hu
    simp only [move, decide_eq_true_eq]
    exact fun hc => hu hc.symm

/-- Witness of C7: moving `[[2,4],[0,0]]` left changes nothing, moving `[[0,2],[0,0]]`
left does. -/
theorem move_noop_witness :
    ((move [[2, 4], [0, 0]] "left" ⟨0, true⟩).moved = false
        ∧ (move [[2, 4], [0, 0]] "left" ⟨0, true⟩).board = [[2, 4], [0, 0]]
        ∧ (move [[2, 4], [0, 0]] "left" ⟨0, true⟩).scoreDelta = 0)
      ∧ (move [[0, 2], [0, 0]] "left" ⟨0, true⟩).moved = true :=
  ⟨(move_noop 2 [[2, 4], [0, 0]] "left" ⟨0, true⟩ (by simp [IsSquare])).1 (by decide),
   (move_noop 2 [[0, 2], [0, 0]] "left" ⟨0, true⟩ (by simp [IsSquare])).2 (by decide)⟩

/-! ## Spawning a tile -/

theorem mem_emptyCells (board : Board) (p : Nat × Nat) :
    p ∈ emptyCells board
      ↔ p.1 < board.length ∧ p.2 < board.length ∧ cellAt board p.1 p.2 = some 0 := by
  obtain ⟨x, y⟩ := p
  simp only [emptyCells, List.mem_flatMap, List.mem_range, List.mem_map, List.mem_filter,
    decide_eq_true_eq, Prod.mk.injEq]
  constructor
  · rintro ⟨i, hi, j, ⟨hj, h0⟩, rfl, rfl⟩
    exact ⟨hi, hj, h0⟩
  · rintro ⟨hx, hy, h0⟩
    exact ⟨x, hx, y, ⟨hy, h0⟩, rfl, rfl⟩

theorem addRandomTile_spec (board : Board) (draw : Draw) (h : emptyCells board ≠ []) :
    ∃ p ∈ emptyCells board,
      addRandomTile board draw = setCell board p.1 p.2 (if draw.small then 2 else 4) := by
  have hpos : 0 < (emptyCells board).length := List.length_pos.2 h
  have hlt : draw.pick % (emptyCells board).length < (emptyCells board).length :=
    Nat.mod_lt _ hpos
  refine ⟨(emptyCells board)[draw.pick % (emptyCells board).length], List.getElem_mem hlt, ?_⟩
  simp only [addRandomTile, cloneBoard_eq]
  rw [if_neg (by omega), List.getD_eq_getElem _ _ hlt]

theorem addRandomTile_full (board : Board) (draw : Draw) (h : emptyCells board = []) :
    addRandomTile board draw = board := by
  simp [addRandomTile, h, cloneBoard_eq]

theorem mergeLoop_fixed_of_length (l : List Int) (h : (mergeLoop l).1.length = l.length) :
    (mergeLoop l).1 = l := by
  induction l using mergeLoop.induct with
  | case1 => simp [mergeLoop]
  | case2 a => simp [mergeLoop]
  | case3 a rest ih =>
    have := mergeLoop_length_le rest
    simp only [mergeLoop, if_true, List.length_cons] at h
    omega
  | case4 a b rest hne ih =>
    simp only [mergeLoop, hne, if_false, List.length_cons] at h ⊢
    rw [ih (by simpa using h)]

theorem slideLeft_changed_has_zero (row : List Int) (h : (slideLeft row).1 ≠ row) :
    (0 : Int) ∈ (slideLeft row).1 := by
  by_contra h0
  apply h
  have h1 := mergeLoop_length_le (row.filter fun v => v ≠ 0)
  have h2 := List.length_filter_le (fun v : Int => decide (v ≠ 0)) row
  have hpad : row.length - (mergeLoop (row.filter fun v => v ≠ 0)).1.length = 0 := by
    by_contra hp
    apply h0
    simp only [slideLeft, List.mem_append, List.mem_replicate]
    exact Or.inr ⟨hp, trivial⟩
  have hfl : (row.filter fun v => v ≠ 0).length = row.length := by omega
  have hfe : (row.filter fun v => v ≠ 0) = row :=
    List.filter_eq_self.2 (List.filter_length_eq_length.1 hfl)
  have hme := mergeLoop_fixed_of_length (row.filter fun v => v ≠ 0) (by omega)
  have hres : (slideLeft row).1 = (mergeLoop (row.filter fun v => v ≠ 0)).1
      ++ List.replicate (row.length - (mergeLoop (row.filter fun v => v ≠ 0)).1.length) 0 := rfl
  rw [hres, hpad, List.replicate_zero, List.append_nil, hme, hfe]

/-- Some cell of the `n × n` board is empty. -/
theorem exists_zero_of_map_ne {n : Nat} {w : Board} (hw : IsSquare n w)
    (h : (w.map fun row => (slideLeft row).1) ≠ w) :
    ∃ i j, i < n ∧ j < n ∧ cellD (w.map fun row => (slideLeft row).1) i j = 0 := by
  have hex : ∃ row ∈ w, (slideLeft row).1 ≠ row := by
    by_contra hc
    push_neg at hc
    exact h ((List.map_congr_left hc).trans (List.map_id w))
  obtain ⟨row, hrow, hne⟩ := hex
  obtain ⟨i, hi, rfl⟩ := List.mem_iff_getElem.1 hrow
  obtain ⟨j, hj, hz⟩ := List.mem_iff_getElem.1 (slideLeft_changed_has_zero _ hne)
  have hjn : j < n := by
    rw [slideLeft_length, hw.row_length hi] at hj; exact hj
  refine ⟨i, j, by rw [← hw.1]; exact hi, hjn, ?_⟩
  have hi' : i < (w.map fun row => (slideLeft row).1).length := by simpa using hi
  have hj' : j < (w.map fun row => (slideLeft row).1)[i].length := by simpa using hj
  rw [cellD, cellAt_of_lt hi' hj']
  simpa using hz

theorem exists_zero_rotateStep {n : Nat} {board : Board} (h : IsSquare n board)
    (hz : ∃ i j, i < n ∧ j < n ∧ cellD board i j = 0) (k : Nat) :
    ∃ i j, i < n ∧ j < n ∧ cellD (rotateStep^[k] board) i j = 0 := by
  induction k generalizing board with
  | zero => exact hz
  | succ k ih =>
    rw [Function.iterate_succ_apply]
    refine ih (h.1 ▸ rotateStep_isSquare board) ?_
    obtain ⟨i, j, hi, hj, h0⟩ := hz
    refine ⟨j, n - 1 - i, hj, by omega, ?_⟩
    rw [cellD_rotateStep _ (by rw [h.1]; exact hj) (by rw [h.1]; omega), h.1,
      show n - 1 - (n - 1 - i) = i by omega]
    exact h0

theorem slideAll_isSquare {n : Nat} {board : Board} (h : IsSquare n board) (direction : String) :
    IsSquare n (slideAll board direction).1 := by
  obtain ⟨k, _, _, he⟩ := slideAll_eq board direction
  rw [he]
  exact iterate_rotateStep_isSquare (map_slideLeft_isSquare (iterate_rotateStep_isSquare h k)) _

theorem slideAll_changed_has_zero {n : Nat} {board : Board} (h : IsSquare n board)
    (direction : String) (hne : (slideAll board direction).1 ≠ board) :
    ∃ i j, i < n ∧ j < n ∧ cellD (slideAll board direction).1 i j = 0 := by
  obtain ⟨k, hk, _, he⟩ := slideAll_eq board direction
  rw [he] at hne ⊢
  have hw := iterate_rotateStep_isSquare h k
  have hne' : ((rotateStep^[k] board).map fun row => (slideLeft row).1) ≠ rotateStep^[k] board :=
    fun hc => hne ((slideAll_fst_eq_iff h hk).2 hc)
  exact exists_zero_rotateStep (map_slideLeft_isSquare hw) (exists_zero_of_map_ne hw hne') _

/-- C8. Exactly one spawn after a changing move on an `n × n` board: when `move` returns
`moved = true`, the slid board has an empty cell `(i, j)`, the returned board is the slid
board with that one cell set to `v`, `v` is 2 or 4, and every other cell is unchanged. -/
theorem move_spawns_one (n : Nat) (board : Board) (direction : String) (draw : Draw)
    (h : IsSquare n board) (hm : (move board direction draw).moved = true) :
    ∃ i j v, i < n ∧ j < n
      ∧ cellAt (slideAll board direction).1 i j = some 0
      ∧ (v = 2 ∨ v = 4)
      ∧ cellAt (move board direction draw).board i j = some v
      ∧ (∀ i' j', (i', j') ≠ (i, j) →
          cellAt (move board direction draw).board i' j'
            = cellAt (slideAll board direction).1 i' j')
      ∧ (move board direction draw).board = setCell (slideAll board direction).1 i j v := by
  have hne : (slideAll board direction).1 ≠ board := by
    simp only [move, decide_eq_true_eq] at hm
    exact fun hc => hm hc.symm
  have hsq := slideAll_isSquare h direction
  obtain ⟨i, j, hi, hj, h0⟩ := slideAll_changed_has_zero h direction hne
  have hmem : (i, j) ∈ emptyCells (slideAll board direction).1 := by
    rw [mem_emptyCells, hsq.1, hsq.cellAt_eq hi hj, h0]
    exact ⟨hi, hj, rfl⟩
  obtain ⟨p, hp, hadd⟩ := addRandomTile_spec (slideAll board direction).1 draw
    (List.ne_nil_of_mem hmem)
  have hboard : (move board direction draw).board
      = setCell (slideAll board direction).1 p.1 p.2 (if draw.small then 2 else 4) := by
    rw [← hadd]
    simp only [move] at hm ⊢
    rw [if_pos hm]
  rw [mem_emptyCells, hsq.1] at hp
  refine ⟨p.1, p.2, if draw.small then 2 else 4, hp.1, hp.2.1, hp.2.2, ?_, ?_, ?_, hboard⟩
  · cases draw.small <;> simp
  · rw [hboard]; exact cellAt_setCell_self _ _ _ _ hp.2.2
  · intro i' j' hne'
    rw [hboard]; exact cellAt_setCell_other _ _ _ _ _ _ hne'

/-- Witness of C8: moving `[[0,2],[0,0]]` left gives `[[2,0],[0,0]]` and a tile spawns. -/
theorem move_spawns_one_witness :
    IsSquare 2 [[0, 2], [0, 0]] ∧ (move [[0, 2], [0, 0]] "left" ⟨1, false⟩).moved = true
      ∧ ∃ i j v, i < 2 ∧ j < 2
        ∧ cellAt (slideAll [[0, 2], [0, 0]] "left").1 i j = some 0
        ∧ (v = 2 ∨ v = 4)
        ∧ cellAt (move [[0, 2], [0, 0]] "left" ⟨1, false⟩).board i j = some v
        ∧ (∀ i' j', (i', j') ≠ (i, j) →
            cellAt (move [[0, 2], [0, 0]] "left" ⟨1, false⟩).board i' j'
              = cellAt (slideAll [[0, 2], [0, 0]] "left").1 i' j')
        ∧ (move [[0, 2], [0, 0]] "left" ⟨1, false⟩).board
            = setCell (slideAll [[0, 2], [0, 0]] "left").1 i j v :=
  ⟨by simp [IsSquare], by decide,
   move_spawns_one 2 [[0, 2], [0, 0]] "left" ⟨1, false⟩ (by simp [IsSquare]) (by decide)⟩

/-! ## Boards with no move left -/

theorem mergeLoop_fixed (l : List Int) (h : ∀ i, i + 1 < l.length → l[i]? ≠ l[i + 1]?) :
    mergeLoop l = (l, 0) := by
  induction l using mergeLoop.induct with
  | case1 => simp [mergeLoop]
  | case2 a => simp [mergeLoop]
  | case3 a rest ih =>
    have := h 0 (by simp)
    simp at this
  | case4 a b rest hne ih =>
    have ih' := ih (fun i hi => by
      have := h (i + 1) (by simp only [List.length_cons] at hi ⊢; omega)
      simpa using this)
    simp only [mergeLoop, hne, if_false, ih']

theorem slideLeft_fixed (row : List Int) (hnz : ∀ x ∈ row, x ≠ 0)
    (hadj : ∀ i, i + 1 < row.length → row[i]? ≠ row[i + 1]?) : slideLeft row = (row, 0) := by
  have hfe : (row.filter fun v => v ≠ 0) = row :=
    List.filter_eq_self.2 (fun x hx => by simpa using hnz x hx)
  simp only [slideLeft, hfe, mergeLoop_fixed row hadj, Nat.sub_self, List.replicate_zero,
    List.append_nil]

theorem blocked_rotateStep {n : Nat} {board : Board} (h : Blocked n board) :
    Blocked n (rotateStep board) := by
  obtain ⟨hsq, hfull, hrow, hcol⟩ := h
  have hlen := hsq.1
  refine ⟨hlen ▸ rotateStep_isSquare board, ?_, ?_, ?_⟩
  · intro i hi j hj
    rw [cellD_rotateStep _ (by omega) (by omega), hlen]
    exact hfull _ (by omega) _ hi
  · intro i hi j hj hj1
    rw [cellD_rotateStep _ (by omega) (by omega), cellD_rotateStep _ (by omega) (by omega), hlen]
    have := hcol (n - 1 - (j + 1)) (by omega) i hi (by omega)
    rw [show n - 1 - (j + 1) + 1 = n - 1 - j by omega] at this
    exact fun hc => this hc.symm
  · intro i hi j hj hi1
    rw [cellD_rotateStep _ (by omega) (by omega), cellD_rotateStep _ (by omega) (by omega), hlen]
    exact hrow _ (by omega) i hi hi1

theorem blocked_iterate {n : Nat} {board : Board} (h : Blocked n board) (k : Nat) :
    Blocked n (rotateStep^[k] board) := by
  induction k generalizing board with
  | zero => exact h
  | succ k ih => rw [Function.iterate_succ_apply]; exact ih (blocked_rotateStep h)

theorem blocked_row_fixed {n : Nat} {board : Board} (h : Blocked n board) :
    ∀ row ∈ board, slideLeft row = (row, 0) := by
  obtain ⟨hsq, hfull, hrow, _⟩ := h
  intro row hmem
  obtain ⟨i, hi, rfl⟩ := List.mem_iff_getElem.1 hmem
  have hin : i < n := by rw [← hsq.1]; exact hi
  have hl : board[i].length = n := hsq.row_length hi
  have hcell : ∀ j (hj : j < board[i].length), cellD board i j = board[i][j] := by
    intro j hj; simp [cellD, cellAt_of_lt hi hj]
  apply slideLeft_fixed
  · intro x hx
    obtain ⟨j, hj, rfl⟩ := List.mem_iff_getElem.1 hx
    rw [← hcell j hj]
    exact hfull i hin j (by omega)
  · intro j hj
    have hj0 : j < board[i].length := by omega
    rw [List.getElem?_eq_getElem hj0, List.getElem?_eq_getElem hj, ← hcell j hj0,
      ← hcell (j + 1) hj]
    exact fun hc => hrow i hin j (by omega) (by omega) (Option.some.inj hc)

theorem blocked_slideAll {n : Nat} {board : Board} (h : Blocked n board)
    (direction : String) : slideAll board direction = (board, 0) := by
  obtain ⟨k, hk, _, he⟩ := slideAll_eq board direction
  have hfix := blocked_row_fixed (blocked_iterate h k)
  have h1 : ((rotateStep^[k] board).map fun row => (slideLeft row).1) = rotateStep^[k] board :=
    (List.map_congr_left (fun row hr => by rw [hfix row hr]; rfl)).trans (List.map_id _)
  have h2 : ((rotateStep^[k] board).map fun row => (slideLeft row).2).sum = 0 :=
    List.sum_eq_zero (fun x hx => by
      obtain ⟨row, hr, rfl⟩ := List.mem_map.1 hx
      rw [hfix row hr])
  rw [he, h1, h2, (iterate_back h.1 k hk).1]

theorem blocked_hasPossibleMoves {n : Nat} {board : Board} (h : Blocked n board) :
    hasPossibleMoves board = false := by
  obtain ⟨hsq, hfull, hrow, hcol⟩ := h
  have hlen := hsq.1
  simp only [hasPossibleMoves, Bool.or_eq_false_iff, List.any_eq_false, List.mem_range,
    hlen, Bool.and_eq_true, decide_eq_true_eq, beq_iff_eq, not_and, Bool.not_eq_true]
  refine ⟨fun i hi j hj => ?_, fun i hi j hj => ⟨?_, ?_⟩⟩
  · rw [hsq.cellAt_eq hi hj]
    intro hc
    exact hfull i hi j hj (Option.some.inj hc)
  · by_cases hj1 : j + 1 < n
    · rw [hsq.cellAt_eq hi hj, hsq.cellAt_eq hi hj1]
      simpa [hj1] using hrow i hi j hj hj1
    · simp [hj1]
  · by_cases hi1 : i + 1 < n
    · rw [hsq.cellAt_eq hi hj, hsq.cellAt_eq hi1 hj]
      simpa [hi1] using hcol i hi j hj hi1
    · simp [hi1]

theorem IsSquare.mem_flatten_iff {n : Nat} {board : Board} (h : IsSquare n board) (v : Int) :
    v ∈ board.flatten ↔ ∃ i j, i < n ∧ j < n ∧ cellD board i j = v := by
  rw [List.mem_flatten]
  constructor
  · rintro ⟨row, hrow, hv⟩
    obtain ⟨i, hi, rfl⟩ := List.mem_iff_getElem.1 hrow
    obtain ⟨j, hj, rfl⟩ := List.mem_iff_getElem.1 hv
    refine ⟨i, j, by rw [← h.1]; exact hi, by rw [← h.row_length hi]; exact hj, ?_⟩
    simp [cellD, cellAt_of_lt hi hj]
  · rintro ⟨i, j, hi, hj, rfl⟩
    have hi' : i < board.length := by rw [h.1]; exact hi
    have hj' : j < board[i].length := by rw [h.row_length hi']; exact hj
    refine ⟨board[i], List.getElem_mem hi', ?_⟩
    simp only [cellD, cellAt_of_lt hi' hj', Option.getD_some]
    exact List.getElem_mem hj'

/-- C9. Terminal flags on an `n × n` board with no move left (no empty cell, no two
adjacent equal cells): `move` in any direction returns the board unchanged with
`moved = false`; it reports `won = true` and `gameOver = false` if some cell is 2048, and
`won = false` and `gameOver = true` otherwise; the two flags are never both true. -/
theorem move_blocked (n : Nat) (board : Board) (direction : String) (draw : Draw)
    (h : Blocked n board) :
    (move board direction draw).board = board
      ∧ (move board direction draw).moved = false
      ∧ ((∃ i j, i < n ∧ j < n ∧ cellD board i j = 2048) →
          (move board direction draw).won = true ∧ (move board direction draw).gameOver = false)
      ∧ ((¬ ∃ i j, i < n ∧ j < n ∧ cellD board i j = 2048) →
          (move board direction draw).won = false ∧ (move board direction draw).gameOver = true)
      ∧ ¬ ((move board direction draw).won = true ∧ (move board direction draw).gameOver = true) := by
  have hs := blocked_slideAll h direction
  have hp := blocked_hasPossibleMoves h
  have hmem := h.1.mem_flatten_iff 2048
  have hw : board.flatten.contains 2048 = decide ((2048 : Int) ∈ board.flatten) := by simp
  simp only [move, hs, ne_eq, not_true_eq_false, decide_False, Bool.false_eq_true, if_false, hp,
    Bool.not_false, Bool.and_true, hw, true_and]
  refine ⟨?_, ?_, ?_⟩
  · intro hex
    simp [hmem.2 hex]
  · intro hex
    have : (2048 : Int) ∉ board.flatten := fun hc => hex (hmem.1 hc)
    simp [this]
  · cases decide ((2048 : Int) ∈ board.flatten) <;> simp

/-- Witness of C9: the full boards `[[2,4],[4,8]]` (no 2048) and `[[2,4],[4,2048]]`. -/
theorem move_blocked_witness :
    Blocked 2 [[2, 4], [4, 8]] ∧ Blocked 2 [[2, 4], [4, 2048]]
      ∧ (move [[2, 4], [4, 8]] "up" ⟨0, true⟩).board = [[2, 4], [4, 8]]
      ∧ (move [[2, 4], [4, 8]] "up" ⟨0, true⟩).moved = false
      ∧ ((move [[2, 4], [4, 8]] "up" ⟨0, true⟩).won = false
          ∧ (move [[2, 4], [4, 8]] "up" ⟨0, true⟩).gameOver = true)
      ∧ ((move [[2, 4], [4, 2048]] "down" ⟨0, true⟩).won = true
          ∧ (move [[2, 4], [4, 2048]] "down" ⟨0, true⟩).gameOver = false) :=
  ⟨by unfold Blocked IsSquare; decide, by unfold Blocked IsSquare; decide,
   (move_blocked 2 [[2, 4], [4, 8]] "up" ⟨0, true⟩ (by unfold Blocked IsSquare; decide)).1,
   (move_blocked 2 [[2, 4], [4, 8]] "up" ⟨0, true⟩ (by unfold Blocked IsSquare; decide)).2.1,
   (move_blocked 2 [[2, 4], [4, 8]] "up" ⟨0, true⟩ (by unfold Blocked IsSquare; decide)).2.2.2.1
     (by
      rintro ⟨i, j, hi, hj, hc⟩
      interval_cases i <;> interval_cases j <;> simp [cellD, cellAt] at hc),
   (move_blocked 2 [[2, 4], [4, 2048]] "down" ⟨0, true⟩
     (by unfold Blocked IsSquare; decide)).2.2.1 ⟨1, 1, by decide, by decide, by decide⟩⟩

/-! ## The initial board -/

/-- C10. For every `size ≥ 2` and every outcome of the draws, `initializeBoard size` is a
`size × size` board with two distinct cells holding 2 or 4 and every other cell 0. -/
theorem initializeBoard_two_tiles (size : Nat) (first second : Draw) (h : 2 ≤ size) :
    IsSquare size (initializeBoard size first second)
      ∧ ∃ p q : Nat × Nat, p ≠ q ∧ p.1 < size ∧ p.2 < size ∧ q.1 < size ∧ q.2 < size
        ∧ (cellAt (initializeBoard size first second) p.1 p.2 = some 2
            ∨ cellAt (initializeBoard size first second) p.1 p.2 = some 4)
        ∧ (cellAt (initializeBoard size first second) q.1 q.2 = some 2
            ∨ cellAt (initializeBoard size first second) q.1 q.2 = some 4)
        ∧ ∀ i j, i < size → j < size → (i, j) ≠ p → (i, j) ≠ q →
            cellAt (initializeBoard size first second) i j = some 0 := by
  have hZ := zeros_isSquare size
  have hZlen : (List.replicate size (List.replicate size (0 : Int))).length = size := by simp
  -- the first tile
  have hmem0 : ((0, 0) : Nat × Nat) ∈ emptyCells (List.replicate size (List.replicate size 0)) := by
    rw [mem_emptyCells, hZlen]
    exact ⟨by omega, by omega, cellAt_zeros (by omega) (by omega)⟩
  obtain ⟨p, hp, h1⟩ := addRandomTile_spec _ first (List.ne_nil_of_mem hmem0)
  rw [mem_emptyCells, hZlen] at hp
  have hsq1 := setCell_isSquare hZ p.1 p.2 (if first.small then 2 else 4)
  rw [← h1] at hsq1
  have hp1 : cellAt (addRandomTile (List.replicate size (List.replicate size 0)) first) p.1 p.2
      = some (if first.small then 2 else 4) := by
    rw [h1]; exact cellAt_setCell_self _ _ _ _ hp.2.2
  have ho1 : ∀ i j, i < size → j < size → (i, j) ≠ p →
      cellAt (addRandomTile (List.replicate size (List.replicate size 0)) first) i j = some 0 := by
    intro i j hi hj hne
    rw [h1, cellAt_setCell_other _ _ _ _ _ _ hne]; exact cellAt_zeros hi hj
  -- the second tile
  have hfree : ∃ q0 : Nat × Nat, q0.1 < size ∧ q0.2 < size ∧ q0 ≠ p := by
    by_cases hp0 : p = (0, 0)
    · exact ⟨(0, 1), by simp; omega, by simp; omega, by rw [hp0]; simp⟩
    · exact ⟨(0, 0), by simp; omega, by simp; omega, fun hc => hp0 hc.symm⟩
  obtain ⟨q0, hq01, hq02, hq0⟩ := hfree
  have hmem1 : q0 ∈ emptyCells (addRandomTile (List.replicate size (List.replicate size 0)) first) := by
    rw [mem_emptyCells, hsq1.1]
    exact ⟨hq01, hq02, ho1 _ _ hq01 hq02 hq0⟩
  obtain ⟨q, hq, h2⟩ := addRandomTile_spec _ second (List.ne_nil_of_mem hmem1)
  rw [mem_emptyCells, hsq1.1] at hq
  have hpq : p ≠ q := by
    intro hc
    rw [← hc, hp1] at hq
    have := Option.some.inj hq.2.2
    split_ifs at this <;> simp at this
  have hB : initializeBoard size first second
      = setCell (addRandomTile (List.replicate size (List.replicate size 0)) first) q.1 q.2
          (if second.small then 2 else 4) := by
    rw [← h2]; rfl
  refine ⟨hB ▸ setCell_isSquare hsq1 _ _ _, p, q, hpq, hp.1, hp.2.1, hq.1, hq.2.1, ?_, ?_, ?_⟩
  · rw [hB, cellAt_setCell_other _ _ _ _ _ _ hpq, hp1]
    cases first.small <;> simp
  · rw [hB, cellAt_setCell_self _ _ _ _ hq.2.2]
    cases second.small <;> simp
  · intro i j hi hj hnp hnq
    rw [hB, cellAt_setCell_other _ _ _ _ _ _ hnq]
    exact ho1 i j hi hj hnp

/-- Witness of C10: a 2 × 2 start with a 2 at `(0, 1)` and a 4 at `(1, 0)`. -/
theorem initializeBoard_two_tiles_witness :
    2 ≤ 2 ∧ initializeBoard 2 ⟨5, true⟩ ⟨7, false⟩ = [[0, 2], [4, 0]]
      ∧ IsSquare 2 (initializeBoard 2 ⟨5, true⟩ ⟨7, false⟩)
      ∧ ∃ p q : Nat × Nat, p ≠ q ∧ p.1 < 2 ∧ p.2 < 2 ∧ q.1 < 2 ∧ q.2 < 2
        ∧ (cellAt (initializeBoard 2 ⟨5, true⟩ ⟨7, false⟩) p.1 p.2 = some 2
            ∨ cellAt (initializeBoard 2 ⟨5, true⟩ ⟨7, false⟩) p.1 p.2 = some 4)
        ∧ (cellAt (initializeBoard 2 ⟨5, true⟩ ⟨7, false⟩) q.1 q.2 = some 2
            ∨ cellAt (initializeBoard 2 ⟨5, true⟩ ⟨7, false⟩) q.1 q.2 = some 4)
        ∧ ∀ i j, i < 2 → j < 2 → (i, j) ≠ p → (i, j) ≠ q →
            cellAt (initializeBoard 2 ⟨5, true⟩ ⟨7, false⟩) i j = some 0 :=
  ⟨by decide, by decide,
   (initializeBoard_two_tiles 2 ⟨5, true⟩ ⟨7, false⟩ (by decide)).1,
   (initializeBoard_two_tiles 2 ⟨5, true⟩ ⟨7, false⟩ (by decide)).2⟩

/-! ## Rotation has order four -/

/-- C11. On a square board of any size `n ≥ 0`, four successive calls of
`rotateBoard · 1` give back the board, and for `r < 4` rotating by `r` and then by
`(4 - r) % 4`, as `move` does, gives back the board. -/
theorem rotateBoard_order_four (n : Nat) (board : Board) (r : Nat) (h : IsSquare n board)
    (hr : r < 4) :
    rotateBoard (rotateBoard (rotateBoard (rotateBoard board 1) 1) 1) 1 = board
      ∧ rotateBoard (rotateBoard board (r : Int)) (Int.tmod (4 - (r : Int)) 4) = board := by
  have h1 : rotationCount 1 = 1 := by decide
  constructor
  · simp only [rotateBoard_eq, h1, Function.iterate_succ_apply, Function.iterate_zero_apply]
    exact rotateStep_four h
  · have h2 : Int.tmod (4 - (r : Int)) 4 = (((4 - r) % 4 : Nat) : Int) := by
      interval_cases r <;> decide
    rw [h2, rotateBoard_eq_iterate _ r hr, rotateBoard_eq_iterate _ _ (Nat.mod_lt _ (by decide))]
    exact (iterate_back h r hr).1

/-- Witness of C11 on the 2 × 2 board `[[1,2],[3,4]]` with `r = 1`. -/
theorem rotateBoard_order_four_witness :
    IsSquare 2 [[1, 2], [3, 4]]
      ∧ rotateBoard [[1, 2], [3, 4]] 1 = [[3, 1], [4, 2]]
      ∧ rotateBoard (rotateBoard (rotateBoard (rotateBoard [[1, 2], [3, 4]] 1) 1) 1) 1
          = [[1, 2], [3, 4]]
      ∧ rotateBoard (rotateBoard [[1, 2], [3, 4]] ((1 : Nat) : Int)) (Int.tmod (4 - ((1 : Nat) : Int)) 4)
          = [[1, 2], [3, 4]] :=
  ⟨by simp [IsSquare], by decide,
   (rotateBoard_order_four 2 [[1, 2], [3, 4]] 1 (by simp [IsSquare]) (by decide)).1,
   (rotateBoard_order_four 2 [[1, 2], [3, 4]] 1 (by simp [IsSquare]) (by decide)).2⟩

/-! ## The one-row example of the specification -/

/-- C12 as stated fails: on the 1 × 4 board `[[2,2,0,0]]` the function `rotateBoard` takes
`size = board.length = 1` and copies the single cell `[0][0]`, so `move` with "right"
computes the board `[[2]]` with score delta 0, not `[[0,0,0,4]]` with score delta 4. -/
theorem move_right_one_row_board :
    slideAll [[2, 2, 0, 0]] "right" = ([[2]], 0)
      ∧ ¬ (slideAll [[2, 2, 0, 0]] "right" = ([[0, 0, 0, 4]], 4)) := by
  refine ⟨by decide, by decide⟩

/-- C12, amended to a square board: on every 4 × 4 board that has the row `[2,2,0,0]` at
index `i`, `move` with "right" computes, before any tile is spawned, a board whose row `i`
is `[0,0,0,4]`, and that row adds 4 to the score delta: the score delta is 4 plus the sum
of the deltas of the other rows. -/
theorem move_right_square_row (board : Board) (i : Nat) (h : IsSquare 4 board)
    (hi : board[i]? = some [2, 2, 0, 0]) :
    (slideAll board "right").1[i]? = some [0, 0, 0, 4]
      ∧ (slideAll board "right").2
          = 4 + ((board.eraseIdx i).map fun row => (slideLeft row.reverse).2).sum := by
  rw [slideAll_right h]
  constructor
  · simp only [List.getElem?_map, hi, Option.map_some']
    decide
  · obtain ⟨hlt, hget⟩ := List.getElem?_eq_some_iff.1 hi
    have hsplit : board = board.take i ++ [2, 2, 0, 0] :: board.drop (i + 1) := by
      rw [← hget]; simp
    have herase : board.eraseIdx i = board.take i ++ board.drop (i + 1) :=
      List.eraseIdx_eq_take_drop_succ board i
    rw [herase]
    conv_lhs => rw [hsplit]
    simp only [List.map_append, List.map_cons, List.sum_append, List.sum_cons]
    have : (slideLeft ([2, 2, 0, 0] : List Int).reverse).2 = 4 := by decide
    rw [this]; ring

/-- Witness of the amended C12: the 4 × 4 board `[[2,2,0,0],[0,0,0,0],[0,0,0,0],[0,0,0,0]]`
becomes `[[0,0,0,4],[0,0,0,0],[0,0,0,0],[0,0,0,0]]` with score delta 4. -/
theorem move_right_square_row_witness :
    IsSquare 4 [[2, 2, 0, 0], [0, 0, 0, 0], [0, 0, 0, 0], [0, 0, 0, 0]]
      ∧ slideAll [[2, 2, 0, 0], [0, 0, 0, 0], [0, 0, 0, 0], [0, 0, 0, 0]] "right"
          = ([[0, 0, 0, 4], [0, 0, 0, 0], [0, 0, 0, 0], [0, 0, 0, 0]], 4)
      ∧ (slideAll [[2, 2, 0, 0], [0, 0, 0, 0], [0, 0, 0, 0], [0, 0, 0, 0]] "right").1[0]?
          = some [0, 0, 0, 4] :=
  ⟨by simp [IsSquare], by decide,
   (move_right_square_row [[2, 2, 0, 0], [0, 0, 0, 0], [0, 0, 0, 0], [0, 0, 0, 0]] 0
      (by simp [IsSquare]) (by decide)).1⟩

/-! ## The terminal-state detector and the move engine -/

theorem slideLeft_fixed_filter (row : List Int) (h : (slideLeft row).1 = row) :
    (mergeLoop (row.filter fun v => v ≠ 0)).1 = row.filter (fun v => v ≠ 0)
      ∧ row = row.filter (fun v => v ≠ 0)
          ++ List.replicate (row.length - (row.filter fun v => v ≠ 0).length) 0 := by
  have hnz := mergeLoop_ne_zero (row.filter fun v => v ≠ 0) (by simp)
  have hfil : ((slideLeft row).1).filter (fun v => v ≠ 0)
      = (mergeLoop (row.filter fun v => v ≠ 0)).1 := by
    simp only [slideLeft, List.filter_append]
    rw [List.filter_eq_self.2 (fun x hx => by simpa using hnz x hx)]
    simp [List.filter_replicate]
  rw [h] at hfil
  refine ⟨hfil.symm, ?_⟩
  have hres : (slideLeft row).1 = (mergeLoop (row.filter fun v => v ≠ 0)).1
      ++ List.replicate (row.length - (mergeLoop (row.filter fun v => v ≠ 0)).1.length) 0 := rfl
  rw [← hfil] at hres
  rw [h] at hres
  exact hres

theorem mergeLoop_fixed_no_adjacent (l : List Int) (h : (mergeLoop l).1 = l) :
    ∀ i, i + 1 < l.length → l[i]? ≠ l[i + 1]? := by
  induction l using mergeLoop.induct with
  | case1 => intro i hi; simp at hi
  | case2 a => intro i hi; simp at hi
  | case3 a rest ih =>
    have h1 := mergeLoop_length_le rest
    have h2 := congrArg List.length h
    simp only [mergeLoop, if_true, List.length_cons] at h2
    omega
  | case4 a b rest hne ih =>
    simp only [mergeLoop, hne, if_false, List.cons.injEq, true_and] at h
    have ih' := ih h
    intro i hi
    cases i with
    | zero => simpa using hne
    | succ i =>
      have := ih' i (by simp only [List.length_cons] at hi ⊢; omega)
      simpa using this

theorem slideLeft_ne_of_adjacent (row : List Int) {j : Nat} {v : Int} (hv : v ≠ 0)
    (h1 : row[j]? = some v) (h2 : row[j + 1]? = some v) : (slideLeft row).1 ≠ row := by
  intro h
  obtain ⟨hm, hrow⟩ := slideLeft_fixed_filter row h
  have hlt : j + 1 < (row.filter fun v => v ≠ 0).length := by
    by_contra hc
    rw [hrow, List.getElem?_append_right (not_lt.1 hc)] at h2
    rw [List.getElem?_replicate] at h2
    split_ifs at h2
    exact hv (Option.some.inj h2).symm
  have e1 : (row.filter fun v => v ≠ 0)[j]? = some v := by
    rw [hrow, List.getElem?_append_left (by omega)] at h1; exact h1
  have e2 : (row.filter fun v => v ≠ 0)[j + 1]? = some v := by
    rw [hrow, List.getElem?_append_left hlt] at h2; exact h2
  exact mergeLoop_fixed_no_adjacent _ hm j hlt (e1.trans e2.symm)

theorem slideLeft_ne_of_zero_before (row : List Int) {j1 j2 : Nat} {v : Int} (hv : v ≠ 0)
    (hlt : j1 < j2) (h1 : row[j1]? = some 0) (h2 : row[j2]? = some v) :
    (slideLeft row).1 ≠ row := by
  intro h
  have hp := slideLeft_zeros_last row
  rw [h] at hp
  obtain ⟨hl1, he1⟩ := List.getElem?_eq_some_iff.1 h1
  obtain ⟨hl2, he2⟩ := List.getElem?_eq_some_iff.1 h2
  have := List.pairwise_iff_getElem.1 hp j1 j2 hl1 hl2 hlt he1
  exact hv (he2.symm.trans this)

theorem move_moved_iff (board : Board) (direction : String) (draw : Draw) :
    (move board direction draw).moved = true ↔ (slideAll board direction).1 ≠ board := by
  simp only [move, decide_eq_true_eq]
  exact ⟨fun h hc => h hc.symm, fun h hc => h hc.symm⟩

theorem IsSquare.exists_row {n : Nat} {board : Board} (h : IsSquare n board) {i : Nat}
    (hi : i < n) :
    ∃ row ∈ board, row.length = n ∧ ∀ j, j < n → row[j]? = some (cellD board i j) := by
  have hi' : i < board.length := by rw [h.1]; exact hi
  refine ⟨board[i], List.getElem_mem hi', h.row_length hi', fun j hj => ?_⟩
  have hj' : j < board[i].length := by rw [h.row_length hi']; exact hj
  rw [List.getElem?_eq_getElem hj', getElem_row hi' hj']

theorem column_getElem? {n : Nat} {board : Board} (h : IsSquare n board) {i c : Nat}
    (hi : i < n) (hc : c < n) : (column board c)[i]? = some (cellD board i c) := by
  have hi' : i < (column board c).length := by rw [column_length, h.1]; exact hi
  rw [List.getElem?_eq_getElem hi', getElem_column h hi hc hi']

theorem getElem?_reverse_flip {l : List Int} {n k : Nat} (hl : l.length = n) (hk : k < n) :
    l.reverse[n - 1 - k]? = l[k]? := by
  rw [List.getElem?_reverse (by omega), hl]
  congr 1; omega

theorem left_changes {board : Board} {row : List Int} (hrow : row ∈ board)
    (hne : (slideLeft row).1 ≠ row) : (slideAll board "left").1 ≠ board := by
  rw [slideAll_left]
  exact fun h => hne (map_fixed_mem _ board h row hrow)

theorem right_changes {n : Nat} {board : Board} (h : IsSquare n board) {row : List Int}
    (hrow : row ∈ board) (hne : (slideLeft row.reverse).1 ≠ row.reverse) :
    (slideAll board "right").1 ≠ board := by
  rw [slideAll_right h]
  intro hc
  have := map_fixed_mem (fun row => (slideLeft row.reverse).1.reverse) board hc row hrow
  apply hne
  have h2 := congrArg List.reverse this
  simpa using h2

theorem down_changes {n : Nat} {board : Board} (h : IsSquare n board) {c : Nat} (hc : c < n)
    (hne : (slideLeft (column board c)).1 ≠ column board c) :
    (slideAll board "down").1 ≠ board := by
  intro he
  apply hne
  rw [← slideAll_down_columns h hc, he]

theorem up_changes {n : Nat} {board : Board} (h : IsSquare n board) {c : Nat} (hc : c < n)
    (hne : (slideLeft (column board c).reverse).1 ≠ (column board c).reverse) :
    (slideAll board "up").1 ≠ board := by
  intro he
  apply hne
  rw [← slideAll_up_columns h hc, he]

/-- An empty cell and a non-empty cell on the same board: some direction changes it. -/
theorem some_direction_changes {n : Nat} {board : Board} (h : IsSquare n board)
    {i1 j1 i2 j2 : Nat} (hi1 : i1 < n) (hj1 : j1 < n) (hi2 : i2 < n) (hj2 : j2 < n)
    (hz : cellD board i1 j1 = 0) (hnz : cellD board i2 j2 ≠ 0) :
    (slideAll board "left").1 ≠ board ∨ (slideAll board "right").1 ≠ board
      ∨ (slideAll board "up").1 ≠ board ∨ (slideAll board "down").1 ≠ board := by
  by_cases hx : cellD board i1 j2 = 0
  · -- column `j2` holds a zero at row `i1` and a tile at row `i2`
    have hcl : (column board j2).length = n := by rw [column_length, h.1]
    have e1 : (column board j2)[i1]? = some 0 := by rw [column_getElem? h hi1 hj2, hx]
    have e2 := column_getElem? h hi2 hj2
    have hne : i1 ≠ i2 := fun hc => hnz (hc ▸ hx)
    rcases Nat.lt_or_gt_of_ne hne with hlt | hgt
    · exact Or.inr (Or.inr (Or.inr
        (down_changes h hj2 (slideLeft_ne_of_zero_before _ hnz hlt e1 e2))))
    · refine Or.inr (Or.inr (Or.inl (up_changes h hj2
        (slideLeft_ne_of_zero_before _ hnz (show n - 1 - i1 < n - 1 - i2 by omega) ?_ ?_))))
      · rw [getElem?_reverse_flip hcl hi1]; exact e1
      · rw [getElem?_reverse_flip hcl hi2]; exact e2
  · -- row `i1` holds a zero at column `j1` and a tile at column `j2`
    obtain ⟨row, hrow, hrl, hget⟩ := h.exists_row hi1
    have e1 : row[j1]? = some 0 := by rw [hget j1 hj1, hz]
    have e2 := hget j2 hj2
    have hne : j1 ≠ j2 := fun hc => hx (hc ▸ hz)
    rcases Nat.lt_or_gt_of_ne hne with hlt | hgt
    · exact Or.inl (left_changes hrow (slideLeft_ne_of_zero_before _ hx hlt e1 e2))
    · refine Or.inr (Or.inl (right_changes h hrow
        (slideLeft_ne_of_zero_before _ hx (show n - 1 - j1 < n - 1 - j2 by omega) ?_ ?_)))
      · rw [getElem?_reverse_flip hrl hj1]; exact e1
      · rw [getElem?_reverse_flip hrl hj2]; exact e2

theorem left_changes_of_equal {n : Nat} {board : Board} (h : IsSquare n board) {i j : Nat}
    (hi : i < n) (hj : j + 1 < n) (he : cellD board i j = cellD board i (j + 1))
    (hnz : cellD board i j ≠ 0) : (slideAll board "left").1 ≠ board := by
  obtain ⟨row, hrow, _, hget⟩ := h.exists_row hi
  exact left_changes hrow
    (slideLeft_ne_of_adjacent row hnz (hget j (by omega)) (by rw [hget (j + 1) hj, he]))

theorem down_changes_of_equal {n : Nat} {board : Board} (h : IsSquare n board) {i j : Nat}
    (hi : i + 1 < n) (hj : j < n) (he : cellD board i j = cellD board (i + 1) j)
    (hnz : cellD board i j ≠ 0) : (slideAll board "down").1 ≠ board :=
  down_changes h hj
    (slideLeft_ne_of_adjacent _ hnz (column_getElem? h (by omega) hj)
      (by rw [column_getElem? h hi hj, he]))

theorem hasPossibleMoves_iff {n : Nat} {board : Board} (h : IsSquare n board) :
    hasPossibleMoves board = true ↔
      (∃ i j, i < n ∧ j < n ∧ cellD board i j = 0)
        ∨ (∃ i j, i < n ∧ j + 1 < n ∧ cellD board i j = cellD board i (j + 1))
        ∨ (∃ i j, i + 1 < n ∧ j < n ∧ cellD board i j = cellD board (i + 1) j) := by
  simp only [hasPossibleMoves, Bool.or_eq_true, List.any_eq_true, List.mem_range, h.1,
    Bool.and_eq_true, decide_eq_true_eq, beq_iff_eq]
  constructor
  · rintro (⟨i, hi, j, hj, h0⟩ | ⟨i, hi, j, hj, ⟨hj1, he⟩ | ⟨hi1, he⟩⟩)
    · rw [h.cellAt_eq hi hj] at h0
      exact Or.inl ⟨i, j, hi, hj, Option.some.inj h0⟩
    · rw [h.cellAt_eq hi hj, h.cellAt_eq hi hj1] at he
      exact Or.inr (Or.inl ⟨i, j, hi, hj1, Option.some.inj he⟩)
    · rw [h.cellAt_eq hi hj, h.cellAt_eq hi1 hj] at he
      exact Or.inr (Or.inr ⟨i, j, hi1, hj, Option.some.inj he⟩)
  · rintro (⟨i, j, hi, hj, h0⟩ | ⟨i, j, hi, hj1, he⟩ | ⟨i, j, hi1, hj, he⟩)
    · exact Or.inl ⟨i, hi, j, hj, by rw [h.cellAt_eq hi hj, h0]⟩
    · exact Or.inr ⟨i, hi, j, by omega, Or.inl ⟨hj1, by
        rw [h.cellAt_eq hi (by omega), h.cellAt_eq hi hj1, he]⟩⟩
    · exact Or.inr ⟨i, by omega, j, hj, Or.inr ⟨hi1, by
        rw [h.cellAt_eq (by omega) hj, h.cellAt_eq hi1 hj, he]⟩⟩

theorem blocked_of_not_hasPossibleMoves {n : Nat} {board : Board} (h : IsSquare n board)
    (hp : hasPossibleMoves board = false) : Blocked n board := by
  have hno : ¬ (hasPossibleMoves board = true) := by simp [hp]
  rw [hasPossibleMoves_iff h] at hno
  refine ⟨h, fun i hi j hj h0 => hno (Or.inl ⟨i, j, hi, hj, h0⟩),
    fun i hi j _ hj1 he => hno (Or.inr (Or.inl ⟨i, j, hi, hj1, he⟩)),
    fun i _ j hj hi1 he => hno (Or.inr (Or.inr ⟨i, j, hi1, hj, he⟩))⟩

/-- On a square board with a non-empty cell, `hasPossibleMoves` holds exactly when sliding
in one of the four directions changes the board. -/
theorem hasPossibleMoves_iff_changes {n : Nat} {board : Board} (h : IsSquare n board)
    (hnz : ∃ i j, i < n ∧ j < n ∧ cellD board i j ≠ 0) :
    hasPossibleMoves board = true ↔
      ((slideAll board "left").1 ≠ board ∨ (slideAll board "right").1 ≠ board
        ∨ (slideAll board "up").1 ≠ board ∨ (slideAll board "down").1 ≠ board) := by
  obtain ⟨i2, j2, hi2, hj2, hv⟩ := hnz
  constructor
  · intro hp
    rcases (hasPossibleMoves_iff h).1 hp with
      ⟨i, j, hi, hj, h0⟩ | ⟨i, j, hi, hj1, he⟩ | ⟨i, j, hi1, hj, he⟩
    · exact some_direction_changes h hi hj hi2 hj2 h0 hv
    · by_cases h0 : cellD board i j = 0
      · exact some_direction_changes h hi (by omega) hi2 hj2 h0 hv
      · exact Or.inl (left_changes_of_equal h hi hj1 he h0)
    · by_cases h0 : cellD board i j = 0
      · exact some_direction_changes h (by omega) hj hi2 hj2 h0 hv
      · exact Or.inr (Or.inr (Or.inr (down_changes_of_equal h hi1 hj he h0)))
  · intro hch
    by_contra hp
    have hb := blocked_of_not_hasPossibleMoves h (by simpa using hp)
    have hfix : ∀ d, (slideAll board d).1 = board := fun d => by rw [blocked_slideAll hb d]
    rcases hch with hc | hc | hc | hc <;> exact hc (hfix _)

theorem addRandomTile_isSquare {n : Nat} {board : Board} (h : IsSquare n board) (draw : Draw) :
    IsSquare n (addRandomTile board draw) := by
  by_cases he : emptyCells board = []
  · rw [addRandomTile_full board draw he]; exact h
  · obtain ⟨p, _, hp⟩ := addRandomTile_spec board draw he
    rw [hp]; exact setCell_isSquare h _ _ _

/-- The board returned by `move` on a square board with a non-empty cell is square and has a
non-empty cell. -/
theorem move_board_has_tile {n : Nat} {board : Board} (h : IsSquare n board)
    (hnz : ∃ i j, i < n ∧ j < n ∧ cellD board i j ≠ 0) (direction : String) (draw : Draw) :
    IsSquare n (move board direction draw).board
      ∧ ∃ i j, i < n ∧ j < n ∧ cellD (move board direction draw).board i j ≠ 0 := by
  have hsq := slideAll_isSquare h direction
  by_cases hm : (slideAll board direction).1 = board
  · have hb : (move board direction draw).board = board := by simp [move, hm]
    rw [hb]; exact ⟨h, hnz⟩
  · have hb : (move board direction draw).board
        = addRandomTile (slideAll board direction).1 draw := by
      have : board ≠ (slideAll board direction).1 := fun hc => hm hc.symm
      simp [move, this]
    rw [hb]
    refine ⟨addRandomTile_isSquare hsq draw, ?_⟩
    obtain ⟨i, j, hi, hj, h0⟩ := slideAll_changed_has_zero h direction hm
    have hmem : (i, j) ∈ emptyCells (slideAll board direction).1 := by
      rw [mem_emptyCells, hsq.1, hsq.cellAt_eq hi hj, h0]
      exact ⟨hi, hj, rfl⟩
    obtain ⟨p, hp, hadd⟩ := addRandomTile_spec (slideAll board direction).1 draw
      (List.ne_nil_of_mem hmem)
    rw [mem_emptyCells, hsq.1] at hp
    refine ⟨p.1, p.2, hp.1, hp.2.1, ?_⟩
    rw [hadd, cellD, cellAt_setCell_self _ _ _ _ hp.2.2]
    cases draw.small <;> simp

/-- C14. The terminal-state detector agrees with the move engine: on an `n × n` board with
at least one non-zero cell, `hasPossibleMoves` is true exactly when `move` returns
`moved = true` for "left", "right", "up" or "down"; hence the `gameOver` flag returned by
`move` is true exactly when the returned board is not won and no direction changes it. -/
theorem hasPossibleMoves_iff_some_move (n : Nat) (board : Board) (direction : String)
    (draw next : Draw) (h : IsSquare n board)
    (hnz : ∃ i j, i < n ∧ j < n ∧ cellD board i j ≠ 0) :
    (hasPossibleMoves board = true ↔
        ((move board "left" draw).moved = true ∨ (move board "right" draw).moved = true
          ∨ (move board "up" draw).moved = true ∨ (move board "down" draw).moved = true))
      ∧ ((move board direction draw).gameOver = true ↔
          ((move board direction draw).won = false
            ∧ ¬ ((move (move board direction draw).board "left" next).moved = true
              ∨ (move (move board direction draw).board "right" next).moved = true
              ∨ (move (move board direction draw).board "up" next).moved = true
              ∨ (move (move board direction draw).board "down" next).moved = true))) := by
  constructor
  · simp only [move_moved_iff]
    exact hasPossibleMoves_iff_changes h hnz
  · obtain ⟨hsq, hnz'⟩ := move_board_has_tile h hnz direction draw
    have hg : (move board direction draw).gameOver
        = (!(move board direction draw).won
            && !hasPossibleMoves (move board direction draw).board) := rfl
    simp only [move_moved_iff, ← hasPossibleMoves_iff_changes hsq hnz', hg]
    cases (move board direction draw).won
      <;> cases hasPossibleMoves (move board direction draw).board <;> simp

/-- Witness of C14: on `[[2,0],[0,0]]` a move is possible, and "right" is one. -/
theorem hasPossibleMoves_iff_some_move_witness :
    IsSquare 2 [[2, 0], [0, 0]]
      ∧ hasPossibleMoves [[2, 0], [0, 0]] = true
      ∧ (move [[2, 0], [0, 0]] "right" ⟨0, true⟩).moved = true
      ∧ ((move [[2, 0], [0, 0]] "left" ⟨0, true⟩).moved = true
          ∨ (move [[2, 0], [0, 0]] "right" ⟨0, true⟩).moved = true
          ∨ (move [[2, 0], [0, 0]] "up" ⟨0, true⟩).moved = true
          ∨ (move [[2, 0], [0, 0]] "down" ⟨0, true⟩).moved = true) :=
  ⟨by simp [IsSquare], by decide, by decide,
   (hasPossibleMoves_iff_some_move 2 [[2, 0], [0, 0]] "left" ⟨0, true⟩ ⟨0, true⟩
      (by simp [IsSquare]) ⟨0, 0, by decide, by decide, by decide⟩).1.1 (by decide)⟩

/-! ## The row reducer on JavaScript numbers -/

theorem js_overflowBound_eq : Js.overflowBound = 2 ^ 1024 := by
  rw [Js.overflowBound, ← pow_add, ← pow_add, ← pow_add]

theorem js_safe_lt_overflowBound : (2 : Nat) ^ 53 < Js.overflowBound := by decide

theorem js_ofInt_small {x : Int} (h : x.natAbs ≤ 2 ^ 53) : Js.ofInt x = Js.Num.fin x := by
  have hb := js_safe_lt_overflowBound
  have hr : Js.roundInt x = x := by simp only [Js.roundInt, h, if_true]
  simp only [Js.ofInt, hr]
  rw [if_pos (by omega)]

theorem js_dbl_fin {v : Int} (h : (2 * v).natAbs < Js.overflowBound) :
    Js.dbl (Js.Num.fin v) = Js.Num.fin (2 * v) := by
  simp [Js.dbl, h]

theorem js_jsEq_fin_self (v : Int) : Js.jsEq (Js.Num.fin v) (Js.Num.fin v) = true := by
  simp [Js.jsEq]

theorem js_jsEq_fin_zero {v : Int} (h : v ≠ 0) :
    Js.jsEq (Js.Num.fin v) (Js.Num.fin 0) = false := by
  simp [Js.jsEq, h]

/-- The tiles built by the loop do not depend on the score, and the tiles already in
`merged` stay in front unchanged. -/
theorem js_mergeLoop_fst_aux (n : Nat) :
    ∀ (l : List Js.Num), l.length ≤ n → ∀ (merged : List Js.Num) (score : Js.Num),
      (Js.mergeLoop l merged score).1 = merged ++ (Js.mergeLoop l [] (Js.Num.fin 0)).1 := by
  induction n with
  | zero =>
    intro l hl merged score
    have : l = [] := List.length_eq_zero.1 (Nat.le_zero.1 hl)
    subst this
    simp [Js.mergeLoop]
  | succ n ih =>
    intro l hl merged score
    match l, hl with
    | [], _ => simp [Js.mergeLoop]
    | [a], _ => simp [Js.mergeLoop]
    | a :: b :: rest, hl =>
      simp only [List.length_cons] at hl
      by_cases hab : Js.jsEq a b = true
      · simp only [Js.mergeLoop, hab, if_true]
        rw [ih rest (by omega) (merged ++ [Js.dbl a]), ih rest (by omega) ([] ++ [Js.dbl a])]
        simp
      · have hab' : Js.jsEq a b = false := by simpa using hab
        simp only [Js.mergeLoop, hab', Bool.false_eq_true, if_false]
        rw [ih (b :: rest) (by simp only [List.length_cons]; omega) (merged ++ [a]),
          ih (b :: rest) (by simp only [List.length_cons]; omega) ([] ++ [a])]
        simp

theorem js_mergeLoop_fst (l : List Js.Num) (merged : List Js.Num) (score : Js.Num) :
    (Js.mergeLoop l merged score).1 = merged ++ (Js.mergeLoop l [] (Js.Num.fin 0)).1 :=
  js_mergeLoop_fst_aux l.length l le_rfl merged score

theorem js_mergeLoop_length_le_aux (n : Nat) :
    ∀ (l : List Js.Num), l.length ≤ n →
      (Js.mergeLoop l [] (Js.Num.fin 0)).1.length ≤ l.length := by
  induction n with
  | zero =>
    intro l hl
    have : l = [] := List.length_eq_zero.1 (Nat.le_zero.1 hl)
    subst this
    simp [Js.mergeLoop]
  | succ n ih =>
    intro l hl
    match l, hl with
    | [], _ => simp [Js.mergeLoop]
    | [a], _ => simp [Js.mergeLoop]
    | a :: b :: rest, hl =>
      simp only [List.length_cons] at hl
      by_cases hab : Js.jsEq a b = true
      · simp only [Js.mergeLoop, hab, if_true]
        rw [js_mergeLoop_fst]
        have := ih rest (by omega)
        simp only [List.length_append, List.length_cons, List.length_nil]
        omega
      · have hab' : Js.jsEq a b = false := by simpa using hab
        simp only [Js.mergeLoop, hab', Bool.false_eq_true, if_false]
        rw [js_mergeLoop_fst]
        have := ih (b :: rest) (by simp only [List.length_cons]; omega)
        simp only [List.length_append, List.length_cons, List.length_nil] at this ⊢
        omega

theorem js_mergeLoop_length_le (l : List Js.Num) :
    (Js.mergeLoop l [] (Js.Num.fin 0)).1.length ≤ l.length :=
  js_mergeLoop_length_le_aux l.length l le_rfl

theorem js_slideLeft_length (row : List Js.Num) : (Js.slideLeft row).1.length = row.length := by
  have h1 := js_mergeLoop_length_le (row.filter fun v => !Js.jsEq v (Js.Num.fin 0))
  have h2 := List.length_filter_le (fun v => !Js.jsEq v (Js.Num.fin 0)) row
  simp only [Js.slideLeft, List.length_append, List.length_replicate]
  omega

/-- The loop on `2 * k` copies of `v`, entered with `j` merges already scored. -/
theorem js_mergeLoop_replicate (v : Int) (k : Nat) :
    ∀ (j : Nat) (merged : List Js.Num), 2 * (j + k) * v.natAbs ≤ 2 ^ 53 →
      Js.mergeLoop (List.replicate (2 * k) (Js.Num.fin v)) merged (Js.Num.fin (2 * j * v))
        = (merged ++ List.replicate k (Js.Num.fin (2 * v)), Js.Num.fin (2 * (j + k : Nat) * v)) := by
  induction k with
  | zero => intro j merged _; simp [Js.mergeLoop]
  | succ k ih =>
    intro j merged hb
    have hb53 := js_safe_lt_overflowBound
    have h : List.replicate (2 * (k + 1)) (Js.Num.fin v)
        = Js.Num.fin v :: Js.Num.fin v :: List.replicate (2 * k) (Js.Num.fin v) := by
      rw [show 2 * (k + 1) = 2 * k + 1 + 1 by ring]; rfl
    have hmono : 2 * (j + 1) * v.natAbs ≤ 2 * (j + (k + 1)) * v.natAbs :=
      Nat.mul_le_mul_right _ (by omega)
    have h2v : (2 * v).natAbs ≤ 2 ^ 53 := by
      rw [Int.natAbs_mul]
      have : (2 : Int).natAbs * v.natAbs ≤ 2 * (j + 1) * v.natAbs :=
        Nat.mul_le_mul_right _ (by simp)
      omega
    have hsum : (2 * (j : Int) * v + 2 * v).natAbs ≤ 2 ^ 53 := by
      have e : 2 * (j : Int) * v + 2 * v = ((2 * (j + 1) : Nat) : Int) * v := by
        push_cast; ring
      rw [e, Int.natAbs_mul, Int.natAbs_ofNat]
      omega
    rw [h]
    simp only [Js.mergeLoop, js_jsEq_fin_self, if_true]
    rw [js_dbl_fin (by omega)]
    simp only [Js.add]
    rw [js_ofInt_small hsum]
    have e2 : 2 * (j : Int) * v + 2 * v = 2 * ((j + 1 : Nat) : Int) * v := by push_cast; ring
    rw [e2, ih (j + 1) _ (by rw [show j + 1 + k = j + (k + 1) by omega]; exact hb)]
    refine Prod.ext ?_ ?_
    · simp [List.replicate_succ]
    · simp only [Js.Num.fin.injEq]; push_cast; ring

/-- C1 as stated fails on large values: on six copies of `2 ^ 53 - 1` the three score
additions of `slideLeft` round the sum to `54043195528445944`, while
`2 * k * v = 54043195528445946`. -/
theorem js_slideLeft_score_rounds :
    Js.slideLeft (List.replicate 6 (Js.Num.fin (2 ^ 53 - 1)))
        = (List.replicate 3 (Js.Num.fin (2 * (2 ^ 53 - 1))) ++ List.replicate 3 (Js.Num.fin 0),
            Js.Num.fin 54043195528445944)
      ∧ (2 * 3 * (2 ^ 53 - 1) : Int) = 54043195528445946
      ∧ ¬ (Js.slideLeft (List.replicate (2 * 3) (Js.Num.fin (2 ^ 53 - 1)))
            = (List.replicate 3 (Js.Num.fin (2 * (2 ^ 53 - 1))) ++ List.replicate 3 (Js.Num.fin 0),
                Js.Num.fin (2 * 3 * (2 ^ 53 - 1)))) := by
  refine ⟨by decide, by decide, by decide⟩

/-- C1, amended. Merge-once rule of `slideLeft` on JavaScript numbers: for a non-zero
integer `v` and `k ≥ 0` with `2 * k * |v| ≤ 2 ^ 53`, the row of `2 * k` copies of `v` becomes
`k` copies of `2 * v` followed by `k` zeros, with score delta `2 * k * v`.  And on every row
that starts with two copies of `v`, whatever follows, the result starts with the single tile
`v * 2` and continues with the result of the rest of the row reduced on its own: the tile
formed by the merge is not merged again. -/
theorem js_slideLeft_merge_once (v : Int) (k : Nat) (rest : List Js.Num) (hv : v ≠ 0)
    (hb : 2 * k * v.natAbs ≤ 2 ^ 53) :
    Js.slideLeft (List.replicate (2 * k) (Js.Num.fin v))
        = (List.replicate k (Js.Num.fin (2 * v)) ++ List.replicate k (Js.Num.fin 0),
            Js.Num.fin (2 * k * v))
      ∧ (Js.slideLeft (Js.Num.fin v :: Js.Num.fin v :: rest)).1
        = Js.dbl (Js.Num.fin v) :: ((Js.slideLeft rest).1 ++ [Js.Num.fin 0]) := by
  constructor
  · have hf : (List.replicate (2 * k) (Js.Num.fin v)).filter
        (fun x => !Js.jsEq x (Js.Num.fin 0)) = List.replicate (2 * k) (Js.Num.fin v) :=
      List.filter_eq_self.2 (fun x hx => by
        rw [(List.mem_replicate.1 hx).2, js_jsEq_fin_zero hv]; rfl)
    have hloop := js_mergeLoop_replicate v k 0 [] (by simpa using hb)
    simp only [Nat.cast_zero, mul_zero, zero_mul, zero_add, List.nil_append] at hloop
    simp only [Js.slideLeft, hf, hloop, List.length_replicate]
    rw [show 2 * k - k = k by omega]
  · have hf : (Js.Num.fin v :: Js.Num.fin v :: rest).filter
        (fun x => !Js.jsEq x (Js.Num.fin 0))
        = Js.Num.fin v :: Js.Num.fin v :: rest.filter (fun x => !Js.jsEq x (Js.Num.fin 0)) := by
      simp [List.filter, js_jsEq_fin_zero hv]
    have h1 := js_mergeLoop_length_le (rest.filter fun x => !Js.jsEq x (Js.Num.fin 0))
    have h2 := List.length_filter_le (fun x => !Js.jsEq x (Js.Num.fin 0)) rest
    have hm : (Js.mergeLoop (Js.Num.fin v :: Js.Num.fin v
          :: rest.filter (fun x => !Js.jsEq x (Js.Num.fin 0))) [] (Js.Num.fin 0)).1
        = Js.dbl (Js.Num.fin v)
          :: (Js.mergeLoop (rest.filter fun x => !Js.jsEq x (Js.Num.fin 0)) []
              (Js.Num.fin 0)).1 := by
      simp only [Js.mergeLoop, js_jsEq_fin_self, if_true]
      rw [js_mergeLoop_fst]; rfl
    simp only [Js.slideLeft, hf, hm, List.length_cons, List.cons_append, List.append_assoc]
    congr 2
    rw [show rest.length + 1 + 1
          - ((Js.mergeLoop (rest.filter fun x => !Js.jsEq x (Js.Num.fin 0)) []
              (Js.Num.fin 0)).1.length + 1)
        = (rest.length
          - (Js.mergeLoop (rest.filter fun x => !Js.jsEq x (Js.Num.fin 0)) []
              (Js.Num.fin 0)).1.length) + 1 by omega]
    rw [List.replicate_succ']

/-- Witness of the amended C1: `[2,2,2,2]` becomes `[4,4,0,0]` with score delta 8, and
`[2,2,4]` becomes `[4,4,0]`, not `[8,0,0]`. -/
theorem js_slideLeft_merge_once_witness :
    (2 : Int) ≠ 0 ∧ 2 * 2 * (2 : Int).natAbs ≤ 2 ^ 53
      ∧ Js.slideLeft [Js.Num.fin 2, Js.Num.fin 2, Js.Num.fin 2, Js.Num.fin 2]
          = ([Js.Num.fin 4, Js.Num.fin 4, Js.Num.fin 0, Js.Num.fin 0], Js.Num.fin 8)
      ∧ (Js.slideLeft [Js.Num.fin 2, Js.Num.fin 2, Js.Num.fin 4]).1
          = [Js.Num.fin 4, Js.Num.fin 4, Js.Num.fin 0]
      ∧ Js.slideLeft [Js.Num.fin 2, Js.Num.fin 2, Js.Num.fin 4]
          ≠ ([Js.Num.fin 8, Js.Num.fin 0, Js.Num.fin 0], Js.Num.fin 12) :=
  ⟨by decide, by decide,
   (js_slideLeft_merge_once 2 2 [Js.Num.fin 4] (by decide) (by decide)).1.trans (by decide),
   (js_slideLeft_merge_once 2 2 [Js.Num.fin 4] (by decide) (by decide)).2.trans (by decide),
   by decide⟩

/-! ## Validity of boards of JavaScript numbers -/

theorem js_cloneBoard_eq (board : Js.Board) : Js.cloneBoard board = board := by
  simp [Js.cloneBoard]

theorem js_tileUpTo_mono {m m' : Nat} (h : m ≤ m') {v : Js.Num} (hv : Js.TileUpTo m v) :
    Js.TileUpTo m' v := by
  rcases hv with rfl | ⟨k, hk, hkm, rfl⟩
  · exact Or.inl rfl
  · exact Or.inr ⟨k, hk, by omega, rfl⟩

theorem js_tileUpTo_isTile {m : Nat} {v : Js.Num} (hv : Js.TileUpTo m v) : Js.IsTile v := by
  rcases hv with rfl | ⟨k, hk, _, rfl⟩
  · exact Or.inl rfl
  · exact Or.inr ⟨k, hk, rfl⟩

theorem js_boardOf_imp {P Q : Js.Num → Prop} (hPQ : ∀ v, P v → Q v) {n : Nat}
    {board : Js.Board} (h : Js.BoardOf P n board) : Js.BoardOf Q n board :=
  ⟨h.1, h.2.1, fun row hrow v hv => hPQ v (h.2.2 row hrow v hv)⟩

theorem two_pow_lt_product (a b c d e : Nat) (h : e < a + b + c + d) :
    2 ^ e < 2 ^ a * 2 ^ b * 2 ^ c * 2 ^ d := by
  rw [← pow_add, ← pow_add, ← pow_add]
  exact Nat.pow_lt_pow_right (by decide) h

theorem js_pow_lt_overflowBound {e : Nat} (h : e ≤ 1023) : 2 ^ e < Js.overflowBound :=
  two_pow_lt_product 256 256 256 256 e (by omega)

/-- Doubling a tile of at most `2 ^ m`, `m ≤ 1022`, gives a tile of at most `2 ^ (m + 1)`. -/
theorem js_dbl_tile {m : Nat} (hm : m ≤ 1022) {v : Js.Num} (hv : Js.TileUpTo m v) :
    Js.TileUpTo (m + 1) (Js.dbl v) := by
  rcases hv with rfl | ⟨k, hk, hkm, rfl⟩
  · exact Or.inl (by decide)
  · refine Or.inr ⟨k + 1, by omega, by omega, ?_⟩
    have hlt : (2 * (2 : Int) ^ k).natAbs < Js.overflowBound := by
      have h2 : (2 : Int).natAbs = 2 := rfl
      have he : (2 * (2 : Int) ^ k).natAbs = 2 ^ (k + 1) := by
        rw [Int.natAbs_mul, Int.natAbs_pow, h2, ← pow_succ']
      rw [he]
      exact js_pow_lt_overflowBound (by omega)
    rw [js_dbl_fin hlt, pow_succ, mul_comm]

theorem js_mergeLoop_tiles {m : Nat} (hm : m ≤ 1022) (l merged : List Js.Num)
    (score : Js.Num) (hl : ∀ x ∈ l, Js.TileUpTo m x)
    (hmerged : ∀ x ∈ merged, Js.TileUpTo (m + 1) x) :
    ∀ y ∈ (Js.mergeLoop l merged score).1, Js.TileUpTo (m + 1) y := by
  induction l, merged, score using Js.mergeLoop.induct with
  | case1 merged score => simpa [Js.mergeLoop] using hmerged
  | case2 a merged score =>
    intro y hy
    simp only [Js.mergeLoop, List.mem_append, List.mem_singleton] at hy
    rcases hy with hy | rfl
    · exact hmerged y hy
    · exact js_tileUpTo_mono (by omega) (hl y (by simp))
  | case3 a b rest merged score hab ih =>
    simp only [Js.mergeLoop, hab, if_true]
    refine ih (fun x hx => hl x (by simp [hx])) (fun x hx => ?_)
    rcases List.mem_append.1 hx with hx | hx
    · exact hmerged x hx
    · rw [List.mem_singleton.1 hx]; exact js_dbl_tile hm (hl a (by simp))
  | case4 a b rest merged score hab ih =>
    simp only [Js.mergeLoop, hab, if_false]
    refine ih (fun x hx => hl x (List.mem_cons_of_mem _ hx)) (fun x hx => ?_)
    rcases List.mem_append.1 hx with hx | hx
    · exact hmerged x hx
    · rw [List.mem_singleton.1 hx]; exact js_tileUpTo_mono (by omega) (hl a (by simp))

theorem js_slideLeft_tiles {m : Nat} (hm : m ≤ 1022) (row : List Js.Num)
    (h : ∀ x ∈ row, Js.TileUpTo m x) : ∀ y ∈ (Js.slideLeft row).1, Js.TileUpTo (m + 1) y := by
  intro y hy
  simp only [Js.slideLeft, List.mem_append, List.mem_replicate] at hy
  rcases hy with hy | ⟨_, rfl⟩
  · exact js_mergeLoop_tiles hm _ [] _ (fun x hx => h x (List.mem_of_mem_filter hx))
      (fun x hx => by simp at hx) y hy
  · exact Or.inl rfl

theorem js_boardOf_setCell {P : Js.Num → Prop} {n : Nat} {board : Js.Board}
    (h : Js.BoardOf P n board) (x y : Nat) {v : Js.Num} (hv : P v) :
    Js.BoardOf P n (Js.setCell board x y v) := by
  obtain ⟨hlen, hrows, hcells⟩ := h
  by_cases hx : x < board.length
  · have hrx : board.getD x [] = board[x] := List.getD_eq_getElem _ _ hx
    refine ⟨by simp [Js.setCell, hlen], fun row hrow => ?_, fun row hrow w hw => ?_⟩
    · simp only [Js.setCell] at hrow
      rcases List.mem_or_eq_of_mem_set hrow with hm | rfl
      · exact hrows row hm
      · rw [List.length_set, hrx]; exact hrows _ (List.getElem_mem hx)
    · simp only [Js.setCell] at hrow
      rcases List.mem_or_eq_of_mem_set hrow with hm | rfl
      · exact hcells row hm w hw
      · rcases List.mem_or_eq_of_mem_set hw with hm | rfl
        · rw [hrx] at hm
          exact hcells _ (List.getElem_mem hx) w hm
        · exact hv
  · have he : Js.setCell board x y v = board := by
      simp only [Js.setCell]; exact List.set_eq_of_length_le (not_lt.1 hx)
    rw [he]; exact ⟨hlen, hrows, hcells⟩

theorem js_boardOf_cellAt {P : Js.Num → Prop} {n : Nat} {board : Js.Board}
    (h : Js.BoardOf P n board) {i j : Nat} (hi : i < n) (hj : j < n) :
    P (Js.cellAt board i j) := by
  obtain ⟨hlen, hrows, hcells⟩ := h
  have hi' : i < board.length := by rw [hlen]; exact hi
  have hj' : j < board[i].length := by rw [hrows _ (List.getElem_mem hi')]; exact hj
  simp only [Js.cellAt, List.getElem?_eq_getElem hi', List.getElem?_eq_getElem hj',
    Option.getD_some]
  exact hcells _ (List.getElem_mem hi') _ (List.getElem_mem hj')

theorem foldl_invariant {α β : Type} (Q : β → Prop) (f : β → α → β) (l : List α) (init : β)
    (h0 : Q init) (hstep : ∀ b, Q b → ∀ x ∈ l, Q (f b x)) : Q (l.foldl f init) := by
  induction l generalizing init with
  | nil => exact h0
  | cons a l ih =>
    simp only [List.foldl_cons]
    exact ih _ (hstep init h0 a (by simp)) (fun b hb x hx => hstep b hb x (by simp [hx]))

theorem js_boardOf_zeros {P : Js.Num → Prop} (h0 : P (Js.Num.fin 0)) (size : Nat) :
    Js.BoardOf P size (List.replicate size (List.replicate size (Js.Num.fin 0))) := by
  refine ⟨by simp, fun row hrow => ?_, fun row hrow v hv => ?_⟩
  · rw [(List.mem_replicate.1 hrow).2]; simp
  · rw [(List.mem_replicate.1 hrow).2] at hv
    rw [(List.mem_replicate.1 hv).2]; exact h0

theorem js_boardOf_rotateOnce {P : Js.Num → Prop} (h0 : P (Js.Num.fin 0)) {n : Nat}
    {board : Js.Board} (h : Js.BoardOf P n board) : Js.BoardOf P n (Js.rotateOnce board) := by
  simp only [Js.rotateOnce, h.1]
  refine foldl_invariant (Js.BoardOf P n) _ _ _ (js_boardOf_zeros h0 n) (fun next hnext i hi => ?_)
  refine foldl_invariant (Js.BoardOf P n) _ _ _ hnext (fun next' hnext' j hj => ?_)
  exact js_boardOf_setCell hnext' _ _
    (js_boardOf_cellAt h (List.mem_range.1 hi) (List.mem_range.1 hj))

theorem js_boardOf_rotateBoard {P : Js.Num → Prop} (h0 : P (Js.Num.fin 0)) {n : Nat}
    {board : Js.Board} (h : Js.BoardOf P n board) (times : Int) :
    Js.BoardOf P n (Js.rotateBoard board times) := by
  simp only [Js.rotateBoard, js_cloneBoard_eq]
  generalize rotationCount times = k
  induction k generalizing board with
  | zero => exact h
  | succ k ih =>
    rw [Function.iterate_succ_apply]
    exact ih (js_boardOf_rotateOnce h0 h)

theorem js_validUpTo_slideAll {m n : Nat} (hm : m ≤ 1022) {board : Js.Board}
    (h : Js.ValidUpTo m n board) (direction : String) :
    Js.ValidUpTo (m + 1) n (Js.slideAll board direction).1 := by
  have hw : Js.BoardOf (Js.TileUpTo m) n (Js.rotateBoard board (rotationsFor direction)) :=
    js_boardOf_rotateBoard (Or.inl rfl) h _
  simp only [Js.slideAll]
  refine js_boardOf_rotateBoard (Or.inl rfl) ⟨by simpa using hw.1, fun row hrow => ?_,
    fun row hrow v hv => ?_⟩ _
  · obtain ⟨r, hr, rfl⟩ := List.mem_map.1 hrow
    rw [js_slideLeft_length]; exact hw.2.1 r hr
  · obtain ⟨r, hr, rfl⟩ := List.mem_map.1 hrow
    exact js_slideLeft_tiles hm r (hw.2.2 r hr) v hv

theorem js_boardOf_addRandomTile {P : Js.Num → Prop} (h2 : P (Js.Num.fin 2))
    (h4 : P (Js.Num.fin 4)) {n : Nat} {board : Js.Board} (h : Js.BoardOf P n board)
    (draw : Draw) : Js.BoardOf P n (Js.addRandomTile board draw) := by
  simp only [Js.addRandomTile, js_cloneBoard_eq]
  split_ifs
  · exact h
  · exact js_boardOf_setCell h _ _ h2
  · exact js_boardOf_setCell h _ _ h4

theorem js_tileUpTo_two {m : Nat} (hm : 1 ≤ m) : Js.TileUpTo m (Js.Num.fin 2) :=
  Or.inr ⟨1, le_rfl, hm, by norm_num⟩

theorem js_tileUpTo_four {m : Nat} (hm : 2 ≤ m) : Js.TileUpTo m (Js.Num.fin 4) :=
  Or.inr ⟨2, by decide, hm, by norm_num⟩

theorem js_valid_pair_board {k : Nat} (hk : 1 ≤ k) :
    Js.Valid 2 [[Js.Num.fin (2 ^ k), Js.Num.fin (2 ^ k)], [Js.Num.fin 0, Js.Num.fin 0]] := by
  have ht : Js.IsTile (Js.Num.fin (2 ^ k)) := Or.inr ⟨k, hk, rfl⟩
  have hz : Js.IsTile (Js.Num.fin 0) := Or.inl rfl
  refine ⟨rfl, fun row hrow => ?_, fun row hrow v hv => ?_⟩
  · simp only [List.mem_cons, List.mem_singleton, List.not_mem_nil, or_false] at hrow
    rcases hrow with rfl | rfl <;> rfl
  · simp only [List.mem_cons, List.mem_singleton, List.not_mem_nil, or_false] at hrow
    rcases hrow with rfl | rfl
    · simp only [List.mem_cons, List.mem_singleton, List.not_mem_nil, or_false] at hv
      rcases hv with rfl | rfl <;> exact ht
    · simp only [List.mem_cons, List.mem_singleton, List.not_mem_nil, or_false] at hv
      rcases hv with rfl | rfl <;> exact hz

theorem two_pow_product_le (a b c d e : Nat) (h : a + b + c + d ≤ e) :
    2 ^ a * 2 ^ b * 2 ^ c * 2 ^ d ≤ 2 ^ e := by
  rw [← pow_add, ← pow_add, ← pow_add]
  exact Nat.pow_le_pow_right (by decide) h

theorem js_overflowBound_le_double {k : Nat} (hk : 1023 ≤ k) :
    Js.overflowBound ≤ (2 * (2 : Int) ^ k).natAbs := by
  have h2 : (2 : Int).natAbs = 2 := rfl
  rw [Int.natAbs_mul, Int.natAbs_pow, h2, ← pow_succ']
  exact two_pow_product_le 256 256 256 256 (k + 1) (by omega)

/-- Moving left a board whose first row holds two copies of a tile `p` with
`2 * p ≥ 2 ^ 1024`: the merged tile is `Infinity`. -/
theorem js_move_left_pair (p : Int) (hpos : 0 < p)
    (hbig : Js.overflowBound ≤ (2 * p).natAbs) :
    (Js.move [[Js.Num.fin p, Js.Num.fin p], [Js.Num.fin 0, Js.Num.fin 0]] "left"
        ⟨0, true⟩).board
      = [[Js.Num.posInf, Js.Num.fin 2], [Js.Num.fin 0, Js.Num.fin 0]] := by
  have h0 : rotationsFor "left" = 0 := by decide
  have h1 : Int.tmod (4 - 0) 4 = 0 := by decide
  have h2 : rotationCount 0 = 0 := by decide
  have hp0 : p ≠ 0 := by omega
  have hdbl : Js.dbl (Js.Num.fin p) = Js.Num.posInf := by
    simp only [Js.dbl]
    rw [if_neg (by omega), if_neg (by omega)]
  have hrow1 : (Js.slideLeft [Js.Num.fin p, Js.Num.fin p]).1
      = [Js.Num.posInf, Js.Num.fin 0] := by
    simp [Js.slideLeft, List.filter, js_jsEq_fin_zero hp0, Js.mergeLoop, js_jsEq_fin_self, hdbl]
  have hrow2 : (Js.slideLeft [Js.Num.fin 0, Js.Num.fin 0]).1
      = [Js.Num.fin 0, Js.Num.fin 0] := by decide
  have hslid : (Js.slideAll [[Js.Num.fin p, Js.Num.fin p], [Js.Num.fin 0, Js.Num.fin 0]]
      "left").1 = [[Js.Num.posInf, Js.Num.fin 0], [Js.Num.fin 0, Js.Num.fin 0]] := by
    simp only [Js.slideAll, h0, h1, Js.rotateBoard, h2, Function.iterate_zero_apply,
      js_cloneBoard_eq, List.map_cons, List.map_nil, hrow1, hrow2]
  have hmoved : ([[Js.Num.fin p, Js.Num.fin p], [Js.Num.fin 0, Js.Num.fin 0]].map
        (fun row => row.map Js.jsonKey))
      ≠ ([[Js.Num.posInf, Js.Num.fin 0], [Js.Num.fin 0, Js.Num.fin 0]].map
        (fun row => row.map Js.jsonKey)) := by
    simp [Js.jsonKey]
  have hadd : Js.addRandomTile [[Js.Num.posInf, Js.Num.fin 0], [Js.Num.fin 0, Js.Num.fin 0]]
      ⟨0, true⟩ = [[Js.Num.posInf, Js.Num.fin 2], [Js.Num.fin 0, Js.Num.fin 0]] := by decide
  simp only [Js.move, hslid]
  rw [if_pos (decide_eq_true hmoved), hadd]

/-- C13 as stated fails on large tiles: the board `[[2^1023, 2^1023], [0, 0]]` is valid, but
`move` with "left" doubles `2 ^ 1023` to `Infinity`, which is not a power of two. -/
theorem js_move_overflow :
    Js.Valid 2 [[Js.Num.fin (2 ^ 1023), Js.Num.fin (2 ^ 1023)], [Js.Num.fin 0, Js.Num.fin 0]]
      ∧ (Js.move [[Js.Num.fin (2 ^ 1023), Js.Num.fin (2 ^ 1023)],
            [Js.Num.fin 0, Js.Num.fin 0]] "left" ⟨0, true⟩).board
          = [[Js.Num.posInf, Js.Num.fin 2], [Js.Num.fin 0, Js.Num.fin 0]]
      ∧ ¬ Js.Valid 2 (Js.move [[Js.Num.fin (2 ^ 1023), Js.Num.fin (2 ^ 1023)],
            [Js.Num.fin 0, Js.Num.fin 0]] "left" ⟨0, true⟩).board := by
  have hboard := js_move_left_pair (2 ^ 1023) (pow_pos (by decide) 1023)
    (js_overflowBound_le_double le_rfl)
  refine ⟨js_valid_pair_board (by decide), hboard, ?_⟩
  rw [hboard]
  intro hv
  have ht := hv.2.2 [Js.Num.posInf, Js.Num.fin 2] (by simp) Js.Num.posInf (by simp)
  rcases ht with h | ⟨k, _, h⟩ <;> cases h

/-- C13, amended. For every valid board of size `n` whose cells are at most `2 ^ 1022`,
every direction and every outcome of the draw, the board returned by `move` is a valid board
of size `n` (with cells at most `2 ^ 1023`); and `initializeBoard size` is a valid board of
size `size`, for every `size`. -/
theorem js_move_preserves_valid (n : Nat) (board : Js.Board) (direction : String)
    (draw : Draw) (size : Nat) (first second : Draw) (h : Js.ValidUpTo 1022 n board) :
    Js.Valid n (Js.move board direction draw).board
      ∧ Js.ValidUpTo 1023 n (Js.move board direction draw).board
      ∧ Js.Valid size (Js.initializeBoard size first second) := by
  have hs : Js.ValidUpTo 1023 n (Js.slideAll board direction).1 :=
    js_validUpTo_slideAll le_rfl h direction
  have hr : Js.ValidUpTo 1023 n (Js.move board direction draw).board := by
    simp only [Js.move]
    split_ifs
    · exact js_boardOf_addRandomTile (js_tileUpTo_two (by decide)) (js_tileUpTo_four (by decide))
        hs draw
    · exact hs
  refine ⟨js_boardOf_imp (fun v hv => js_tileUpTo_isTile hv) hr, hr, ?_⟩
  have hz : Js.ValidUpTo 2 size (List.replicate size (List.replicate size (Js.Num.fin 0))) :=
    js_boardOf_zeros (Or.inl rfl) size
  have h1 := js_boardOf_addRandomTile (js_tileUpTo_two (by decide))
    (js_tileUpTo_four le_rfl) hz first
  have h2 := js_boardOf_addRandomTile (js_tileUpTo_two (by decide))
    (js_tileUpTo_four le_rfl) h1 second
  exact js_boardOf_imp (fun v hv => js_tileUpTo_isTile hv) h2

theorem js_validUpTo_example :
    Js.ValidUpTo 1022 2 [[Js.Num.fin 2, Js.Num.fin 2], [Js.Num.fin 0, Js.Num.fin 4]] :=
  js_boardOf_setCell
    (js_boardOf_setCell
      (js_boardOf_setCell (js_boardOf_zeros (Or.inl rfl) 2) 0 0 (js_tileUpTo_two (by decide)))
      0 1 (js_tileUpTo_two (by decide)))
    1 1 (js_tileUpTo_four (by decide))

/-- Witness of the amended C13: the valid board `[[2,2],[0,4]]` moved left, and a 1 × 1
start. -/
theorem js_move_preserves_valid_witness :
    Js.ValidUpTo 1022 2 [[Js.Num.fin 2, Js.Num.fin 2], [Js.Num.fin 0, Js.Num.fin 4]]
      ∧ (Js.move [[Js.Num.fin 2, Js.Num.fin 2], [Js.Num.fin 0, Js.Num.fin 4]] "left"
            ⟨0, true⟩).board
          = [[Js.Num.fin 4, Js.Num.fin 2], [Js.Num.fin 4, Js.Num.fin 0]]
      ∧ Js.Valid 2 (Js.move [[Js.Num.fin 2, Js.Num.fin 2], [Js.Num.fin 0, Js.Num.fin 4]] "left"
            ⟨0, true⟩).board
      ∧ Js.initializeBoard 1 ⟨0, true⟩ ⟨0, false⟩ = [[Js.Num.fin 2]]
      ∧ Js.Valid 1 (Js.initializeBoard 1 ⟨0, true⟩ ⟨0, false⟩) :=
  ⟨js_validUpTo_example, by decide,
   (js_move_preserves_valid 2 _ "left" ⟨0, true⟩ 1 ⟨0, true⟩ ⟨0, false⟩
      js_validUpTo_example).1,
   by decide,
   (js_move_preserves_valid 2 _ "left" ⟨0, true⟩ 1 ⟨0, true⟩ ⟨0, false⟩
      js_validUpTo_example).2.2⟩

/-! ## The exact row reducer and the row reducer on JavaScript numbers -/

theorem natAbs_add_double_le (s a : Int) : (s + 2 * a).natAbs ≤ s.natAbs + (a.natAbs + a.natAbs) := by
  omega

/-- The loop of `Js.slideLeft` on integers whose absolute values, together with the score so
far, sum to at most `2 ^ 53`, computes what the exact loop `mergeLoop` computes. -/
theorem js_mergeLoop_exact (l : List Int) :
    ∀ (merged : List Int) (s : Int), s.natAbs + (l.map Int.natAbs).sum ≤ 2 ^ 53 →
      Js.mergeLoop (l.map Js.Num.fin) (merged.map Js.Num.fin) (Js.Num.fin s)
        = ((merged ++ (mergeLoop l).1).map Js.Num.fin, Js.Num.fin (s + (mergeLoop l).2)) := by
  induction l using mergeLoop.induct with
  | case1 => intro merged s _; simp [Js.mergeLoop, mergeLoop]
  | case2 a => intro merged s _; simp [Js.mergeLoop, mergeLoop]
  | case3 a rest ih =>
    intro merged s hb
    simp only [List.map_cons, List.sum_cons] at hb
    have hlt := js_safe_lt_overflowBound
    have h2a : (2 * a).natAbs < Js.overflowBound := by
      have : (2 * a).natAbs = a.natAbs + a.natAbs := by omega
      omega
    have hsum : (s + 2 * a).natAbs ≤ 2 ^ 53 := by
      have := natAbs_add_double_le s a
      omega
    have hstep := ih (merged ++ [a * 2]) (s + 2 * a) (by
      have := natAbs_add_double_le s a
      omega)
    simp only [List.map_append, List.map_cons, List.map_nil] at hstep
    simp only [List.map_cons, Js.mergeLoop, js_jsEq_fin_self, if_true, js_dbl_fin h2a, Js.add,
      js_ofInt_small hsum, mergeLoop]
    rw [mul_comm a 2] at hstep
    rw [hstep]
    refine Prod.ext ?_ ?_
    · simp [mul_comm]
    · simp only [Js.Num.fin.injEq]; ring
  | case4 a b rest hne ih =>
    intro merged s hb
    simp only [List.map_cons, List.sum_cons] at hb
    have hab : Js.jsEq (Js.Num.fin a) (Js.Num.fin b) = false := by simp [Js.jsEq, hne]
    have hstep := ih (merged ++ [a]) s (by
      simp only [List.map_cons, List.sum_cons]; omega)
    simp only [List.map_append, List.map_cons, List.map_nil] at hstep
    simp only [List.map_cons, Js.mergeLoop, hab, Bool.false_eq_true, if_false, mergeLoop, hne]
    rw [hstep]
    simp

theorem sum_natAbs_filter_le (row : List Int) (p : Int → Bool) :
    ((row.filter p).map Int.natAbs).sum ≤ (row.map Int.natAbs).sum := by
  induction row with
  | nil => simp
  | cons a row ih =>
    simp only [List.filter_cons]
    split_ifs <;> simp only [List.map_cons, List.sum_cons] <;> omega

/-- On a row of integers whose absolute values sum to at most `2 ^ 53`, `slideLeft` on
JavaScript numbers returns the tiles and the score delta of the exact `slideLeft`: no
doubling overflows and no addition rounds. -/
theorem js_slideLeft_exact (row : List Int) (h : (row.map Int.natAbs).sum ≤ 2 ^ 53) :
    Js.slideLeft (row.map Js.Num.fin)
      = ((slideLeft row).1.map Js.Num.fin, Js.Num.fin (slideLeft row).2) := by
  have hf : (row.map Js.Num.fin).filter (fun v => !Js.jsEq v (Js.Num.fin 0))
      = (row.filter fun v => v ≠ 0).map Js.Num.fin := by
    rw [List.filter_map]
    congr 1
    apply List.filter_congr
    intro x _
    by_cases hx : x = 0 <;> simp [Js.jsEq, hx]
  have hloop := js_mergeLoop_exact (row.filter fun v => v ≠ 0) [] 0 (by
    have := sum_natAbs_filter_le row (fun v => decide (v ≠ 0))
    simpa using this.trans h)
  simp only [List.map_nil, List.nil_append, zero_add] at hloop
  simp only [Js.slideLeft, hf, hloop, slideLeft, List.map_append, List.map_replicate,
    List.length_map]

/-! ## The exact engine and the engine on JavaScript numbers

On a square board whose cells are bounded by `M` in absolute value, with
`n * n * M ≤ 2 ^ 53`, no doubling overflows and no score addition rounds: `Js.move` returns
what `move` returns. -/

theorem js_cellAt_toJs (board : Board) (i j : Nat) :
    Js.cellAt (toJs board) i j = readJs (cellAt board i j) := by
  simp only [Js.cellAt, toJs, cellAt, List.getElem?_map]
  cases board[i]? with
  | none => rfl
  | some row =>
    simp only [Option.map_some', Option.some_bind, List.getElem?_map]
    cases row[j]? <;> rfl

theorem js_cellAt_toJs_square {n : Nat} {board : Board} (h : IsSquare n board) {i j : Nat}
    (hi : i < n) (hj : j < n) : Js.cellAt (toJs board) i j = Js.Num.fin (cellD board i j) := by
  rw [js_cellAt_toJs, h.cellAt_eq hi hj]; rfl

theorem js_jsEq_readJs (x y : Option Int) : Js.jsEq (readJs x) (readJs y) = decide (x = y) := by
  cases x <;> cases y <;> simp [readJs, Js.jsEq]

theorem js_setCell_toJs (board : Board) (x y : Nat) (v : Int) :
    Js.setCell (toJs board) x y (Js.Num.fin v) = toJs (setCell board x y v) := by
  simp only [Js.setCell, toJs, setCell, List.map_set]
  congr 1
  simp only [List.getD_eq_getElem?_getD, List.getElem?_map]
  cases board[x]? <;> simp

theorem foldl_commute {α β γ : Type} (φ : β → γ) (f : β → α → β) (g : γ → α → γ)
    (Q : β → Prop) (l : List α) (init : β) (h0 : Q init)
    (hQ : ∀ s, Q s → ∀ x ∈ l, Q (f s x))
    (hstep : ∀ s, Q s → ∀ x ∈ l, g (φ s) x = φ (f s x)) :
    l.foldl g (φ init) = φ (l.foldl f init) := by
  induction l generalizing init with
  | nil => rfl
  | cons a l ih =>
    simp only [List.foldl_cons]
    rw [hstep init h0 a (by simp)]
    exact ih _ (hQ init h0 a (by simp)) (fun s hs x hx => hQ s hs x (by simp [hx]))
      (fun s hs x hx => hstep s hs x (by simp [hx]))

theorem js_rotateOnce_toJs {n : Nat} {board : Board} (h : IsSquare n board) :
    Js.rotateOnce (toJs board) = toJs (rotateOnce board) := by
  have hlen : (toJs board).length = n := by simp [toJs, h.1]
  have hz : (List.replicate n (List.replicate n (Js.Num.fin 0)) : Js.Board)
      = toJs (List.replicate n (List.replicate n (0 : Int))) := by
    simp [toJs]
  simp only [Js.rotateOnce, rotateOnce, hlen, h.1, hz]
  refine foldl_commute toJs _ _ (fun _ => True) _ _ trivial (fun _ _ _ _ => trivial)
    (fun next _ i hi => ?_)
  refine foldl_commute toJs _ _ (fun _ => True) _ _ trivial (fun _ _ _ _ => trivial)
    (fun next' _ j hj => ?_)
  rw [js_cellAt_toJs_square h (List.mem_range.1 hi) (List.mem_range.1 hj), js_setCell_toJs]

theorem rotateOnce_isSquare {n : Nat} {board : Board} (h : IsSquare n board) :
    IsSquare n (rotateOnce board) := by
  rw [rotateOnce_eq]; exact h.1 ▸ rotateStep_isSquare board

theorem js_rotateBoard_toJs {n : Nat} {board : Board} (h : IsSquare n board) (times : Int) :
    Js.rotateBoard (toJs board) times = toJs (rotateBoard board times) := by
  simp only [Js.rotateBoard, rotateBoard, js_cloneBoard_eq, cloneBoard_eq]
  generalize rotationCount times = k
  induction k generalizing board with
  | zero => rfl
  | succ k ih =>
    rw [Function.iterate_succ_apply, Function.iterate_succ_apply, js_rotateOnce_toJs h]
    exact ih (rotateOnce_isSquare h)

theorem cellD_natAbs_le {M : Nat} {board : Board}
    (h : ∀ row ∈ board, ∀ v ∈ row, v.natAbs ≤ M) (i j : Nat) : (cellD board i j).natAbs ≤ M := by
  simp only [cellD, cellAt]
  cases hb : board[i]? with
  | none => simp
  | some row =>
    simp only [Option.some_bind]
    cases hr : row[j]? with
    | none => simp
    | some v =>
      simp only [Option.getD_some]
      exact h row (List.getElem?_mem hb) v (List.getElem?_mem hr)

theorem rotateStep_natAbs_le {M : Nat} {board : Board}
    (h : ∀ row ∈ board, ∀ v ∈ row, v.natAbs ≤ M) :
    ∀ row ∈ rotateStep board, ∀ v ∈ row, v.natAbs ≤ M := by
  intro row hrow v hv
  simp only [rotateStep, List.mem_map, List.mem_range] at hrow
  obtain ⟨r, _, rfl⟩ := hrow
  simp only [List.mem_map, List.mem_range] at hv
  obtain ⟨c, _, rfl⟩ := hv
  exact cellD_natAbs_le h _ _

theorem rotateBoard_bounded {n M : Nat} {board : Board} (h : IsSquare n board)
    (hM : ∀ row ∈ board, ∀ v ∈ row, v.natAbs ≤ M) (times : Int) :
    IsSquare n (rotateBoard board times)
      ∧ ∀ row ∈ rotateBoard board times, ∀ v ∈ row, v.natAbs ≤ M := by
  rw [rotateBoard_eq]
  generalize rotationCount times = k
  induction k generalizing board with
  | zero => exact ⟨h, hM⟩
  | succ k ih =>
    rw [Function.iterate_succ_apply]
    exact ih (h.1 ▸ rotateStep_isSquare board) (rotateStep_natAbs_le hM)

theorem sum_natAbs_le_length_mul {M : Nat} (row : List Int) (h : ∀ v ∈ row, v.natAbs ≤ M) :
    (row.map Int.natAbs).sum ≤ row.length * M := by
  induction row with
  | nil => simp
  | cons a row ih =>
    have h1 := h a (by simp)
    have h2 := ih (fun v hv => h v (by simp [hv]))
    simp only [List.map_cons, List.sum_cons, List.length_cons]
    rw [Nat.add_mul, Nat.one_mul]
    omega

theorem mergeLoop_score_natAbs_le (l : List Int) :
    (mergeLoop l).2.natAbs ≤ (l.map Int.natAbs).sum := by
  induction l using mergeLoop.induct with
  | case1 => simp [mergeLoop]
  | case2 a => simp [mergeLoop]
  | case3 a rest ih =>
    simp only [mergeLoop, if_true, List.map_cons, List.sum_cons]
    omega
  | case4 a b rest hne ih =>
    simp only [mergeLoop, hne, if_false, List.map_cons, List.sum_cons] at ih ⊢
    omega

theorem slideLeft_score_natAbs_le (row : List Int) :
    (slideLeft row).2.natAbs ≤ (row.map Int.natAbs).sum :=
  (mergeLoop_score_natAbs_le _).trans (sum_natAbs_filter_le row _)

theorem js_map_slideLeft_toJs {B : Nat} (w : Board)
    (hrow : ∀ row ∈ w, (row.map Int.natAbs).sum ≤ B) (hB : B ≤ 2 ^ 53) :
    (toJs w).map (fun row => (Js.slideLeft row).1)
      = toJs (w.map fun row => (slideLeft row).1) := by
  simp only [toJs, List.map_map]
  apply List.map_congr_left
  intro row hr
  simp only [Function.comp_apply]
  rw [js_slideLeft_exact row ((hrow row hr).trans hB)]

theorem js_totalDelta_toJs {B : Nat} (w : Board)
    (hrow : ∀ row ∈ w, (row.map Int.natAbs).sum ≤ B) :
    ∀ acc : Int, acc.natAbs + w.length * B ≤ 2 ^ 53 →
      (toJs w).foldl (fun acc row => Js.add acc (Js.slideLeft row).2) (Js.Num.fin acc)
        = Js.Num.fin (w.foldl (fun acc row => acc + (slideLeft row).2) acc) := by
  induction w with
  | nil => intro acc _; rfl
  | cons row w ih =>
    intro acc hacc
    have hr := hrow row (by simp)
    have hd := slideLeft_score_natAbs_le row
    simp only [List.length_cons, Nat.add_mul, Nat.one_mul] at hacc
    have hsum : (acc + (slideLeft row).2).natAbs ≤ acc.natAbs + B := by omega
    simp only [toJs, List.map_cons, List.foldl_cons]
    rw [js_slideLeft_exact row (by omega)]
    simp only [Js.add]
    rw [js_ofInt_small (by omega)]
    exact ih (fun r hr' => hrow r (by simp [hr'])) _ (by omega)

theorem js_slideAll_toJs {n M : Nat} {board : Board} (h : IsSquare n board)
    (hM : ∀ row ∈ board, ∀ v ∈ row, v.natAbs ≤ M) (hb : n * n * M ≤ 2 ^ 53)
    (direction : String) :
    Js.slideAll (toJs board) direction
      = (toJs (slideAll board direction).1, Js.Num.fin (slideAll board direction).2) := by
  obtain ⟨hsq, hwM⟩ := rotateBoard_bounded h hM (rotationsFor direction)
  have hrow : ∀ row ∈ rotateBoard board (rotationsFor direction),
      (row.map Int.natAbs).sum ≤ n * M := by
    intro row hr
    have := sum_natAbs_le_length_mul row (hwM row hr)
    rw [hsq.2 row hr] at this
    exact this
  have hnM : n * M ≤ 2 ^ 53 := by
    rcases Nat.eq_zero_or_pos n with h0 | hpos
    · simp [h0]
    · calc n * M = 1 * (n * M) := (Nat.one_mul _).symm
        _ ≤ n * (n * M) := Nat.mul_le_mul_right _ hpos
        _ = n * n * M := (Nat.mul_assoc n n M).symm
        _ ≤ 2 ^ 53 := hb
  have htot := js_totalDelta_toJs (rotateBoard board (rotationsFor direction)) hrow 0 (by
    rw [hsq.1, Int.natAbs_zero, Nat.zero_add, ← Nat.mul_assoc]; exact hb)
  simp only [Js.slideAll, slideAll, js_rotateBoard_toJs h, js_map_slideLeft_toJs _ hrow hnM,
    js_rotateBoard_toJs (map_slideLeft_isSquare hsq), htot]

theorem js_jsonKey_toJs (board : Board) :
    (toJs board).map (fun row => row.map Js.jsonKey)
      = board.map (fun row => row.map some) := by
  simp only [toJs, List.map_map]
  apply List.map_congr_left
  intro row _
  simp only [Function.comp_apply, List.map_map]
  apply List.map_congr_left
  intro v _
  rfl

theorem map_map_some_injective {a b : Board}
    (h : a.map (fun row => row.map some) = b.map (fun row => row.map some)) : a = b :=
  List.map_injective_iff.2 (List.map_injective_iff.2 (Option.some_injective Int)) h

theorem js_toJs_length (board : Board) : (toJs board).length = board.length := by
  simp [toJs]

theorem js_emptyCells_toJs (board : Board) : Js.emptyCells (toJs board) = emptyCells board := by
  simp only [Js.emptyCells, emptyCells, js_toJs_length]
  congr 1
  funext i
  congr 1
  apply List.filter_congr
  intro j _
  rw [js_cellAt_toJs]
  exact js_jsEq_readJs _ (some 0)

theorem js_addRandomTile_toJs (board : Board) (draw : Draw) :
    Js.addRandomTile (toJs board) draw = toJs (addRandomTile board draw) := by
  simp only [Js.addRandomTile, addRandomTile, js_emptyCells_toJs, js_cloneBoard_eq,
    cloneBoard_eq]
  split_ifs
  · rfl
  · exact js_setCell_toJs _ _ _ 2
  · exact js_setCell_toJs _ _ _ 4

theorem js_any_fin_eq_contains (l : List Int) (a : Int) :
    ((l.map Js.Num.fin).any fun v => Js.jsEq v (Js.Num.fin a)) = l.contains a := by
  induction l with
  | nil => rfl
  | cons x l ih =>
    rw [List.map_cons, List.any_cons, ih, List.contains_cons]
    congr 1
    simp only [Js.jsEq]
    by_cases hx : x = a
    · simp [hx]
    · have hx' : ¬ a = x := fun hc => hx hc.symm
      simp [hx, hx']

theorem js_won_toJs (board : Board) :
    ((toJs board).flatten.any fun v => Js.jsEq v (Js.Num.fin 2048))
      = board.flatten.contains 2048 := by
  have hf : (toJs board).flatten = board.flatten.map Js.Num.fin := by
    simp only [toJs]
    exact (List.map_flatten _ _).symm
  rw [hf]
  exact js_any_fin_eq_contains _ 2048

theorem js_hasPossibleMoves_toJs (board : Board) :
    Js.hasPossibleMoves (toJs board) = hasPossibleMoves board := by
  have h0 : ∀ i j, Js.jsEq (Js.cellAt (toJs board) i j) (Js.Num.fin 0)
      = (cellAt board i j == some 0) := by
    intro i j
    rw [js_cellAt_toJs, show Js.Num.fin 0 = readJs (some 0) from rfl, js_jsEq_readJs]
    by_cases h : cellAt board i j = some 0 <;> simp [h]
  have he : ∀ i j i' j', Js.jsEq (Js.cellAt (toJs board) i j) (Js.cellAt (toJs board) i' j')
      = (cellAt board i j == cellAt board i' j') := by
    intro i j i' j'
    rw [js_cellAt_toJs, js_cellAt_toJs, js_jsEq_readJs]
    by_cases h : cellAt board i j = cellAt board i' j' <;> simp [h]
  simp only [Js.hasPossibleMoves, hasPossibleMoves, js_toJs_length, h0, he]

/-- On a square board of size `n` whose cells are at most `M` in absolute value, with
`n * n * M ≤ 2 ^ 53`, the engine on JavaScript numbers returns what the exact engine
returns: the same board, score delta and flags. -/
theorem js_move_exact (n M : Nat) (board : Board) (direction : String) (draw : Draw)
    (h : IsSquare n board) (hM : ∀ row ∈ board, ∀ v ∈ row, v.natAbs ≤ M)
    (hb : n * n * M ≤ 2 ^ 53) :
    (Js.move (toJs board) direction draw).board = toJs (move board direction draw).board
      ∧ (Js.move (toJs board) direction draw).scoreDelta
          = Js.Num.fin (move board direction draw).scoreDelta
      ∧ (Js.move (toJs board) direction draw).moved = (move board direction draw).moved
      ∧ (Js.move (toJs board) direction draw).won = (move board direction draw).won
      ∧ (Js.move (toJs board) direction draw).gameOver
          = (move board direction draw).gameOver := by
  have hs := js_slideAll_toJs h hM hb direction
  have hmoved : decide ((toJs board).map (fun row => row.map Js.jsonKey)
        ≠ (toJs (slideAll board direction).1).map (fun row => row.map Js.jsonKey))
      = decide (board ≠ (slideAll board direction).1) := by
    rw [js_jsonKey_toJs, js_jsonKey_toJs]
    by_cases he : board = (slideAll board direction).1
    · rw [← he]; simp
    · have : board.map (fun row => row.map some)
          ≠ (slideAll board direction).1.map (fun row => row.map some) :=
        fun hc => he (map_map_some_injective hc)
      simp [he, this]
  have hboard : (Js.move (toJs board) direction draw).board
      = toJs (move board direction draw).board := by
    simp only [Js.move, move, hs, hmoved]
    split_ifs
    · exact js_addRandomTile_toJs _ _
    · rfl
  refine ⟨hboard, ?_, ?_, ?_, ?_⟩
  · simp only [Js.move, move, hs]
  · simp only [Js.move, move, hs, hmoved]
  · have := js_won_toJs (move board direction draw).board
    rw [← hboard] at this
    exact this
  · have hw := js_won_toJs (move board direction draw).board
    have hp := js_hasPossibleMoves_toJs (move board direction draw).board
    rw [← hboard] at hw hp
    show (!((Js.move (toJs board) direction draw).board.flatten.any
          fun v => Js.jsEq v (Js.Num.fin 2048))
        && !Js.hasPossibleMoves (Js.move (toJs board) direction draw).board) = _
    rw [hw, hp]
    rfl

theorem js_initializeBoard_toJs (size : Nat) (first second : Draw) :
    Js.initializeBoard size first second = toJs (initializeBoard size first second) := by
  have hz : (List.replicate size (List.replicate size (Js.Num.fin 0)) : Js.Board)
      = toJs (List.replicate size (List.replicate size (0 : Int))) := by
    simp [toJs]
  simp only [Js.initializeBoard, initializeBoard, hz, js_addRandomTile_toJs]

end Game2048
